import Mathlib

/-!
# Receipt processor: point-calculation rules and the in-memory store

A shallow embedding of `backend.go`.

* Go strings are modelled by Lean `String`s (sequences of Unicode scalar values); `len` of a
  Go string is its UTF-8 byte length.
* The three library facilities the program relies on are modelled by their documented
  behaviour: `regexp` (leftmost-first backtracking semantics over a small pattern syntax
  tree), `strconv.Atoi`, and `strconv.ParseFloat` together with IEEE-754 binary64
  arithmetic (round to nearest, ties to even).
* Go `int` is the 64-bit two's-complement integer; additions wrap.
-/

namespace Receipts

/-! ## Regular expressions (package `regexp`) -/

/-- Syntax tree of the patterns used by the program. Capturing groups carry the index
that the order of their opening parenthesis gives them. -/
inductive Regex where
  | beginText : Regex
  | endText : Regex
  | cls (p : Char → Bool) : Regex
  | seq (a b : Regex) : Regex
  | plus (a : Regex) : Regex
  | rep (n : Nat) (a : Regex) : Regex
  | group (i : Nat) (a : Regex) : Regex

/-- A position of the matcher in the text: the number of characters already consumed,
the characters still to read, and the capture groups closed so far (latest first). -/
structure MState where
  pos : Nat
  rest : List Char
  caps : List (Nat × List Char)

/-- Greedy iteration `a+`: every outcome of one or more rounds of `f`, those that make
more rounds first. -/
def iterPlus (f : MState → List MState) : Nat → MState → List MState
  | 0, _ => []
  | fuel + 1, st => (f st).flatMap (fun st1 => iterPlus f fuel st1 ++ [st1])

/-- Exact repetition `a{n}`. -/
def iterRep (f : MState → List MState) : Nat → MState → List MState
  | 0, st => [st]
  | n + 1, st => (f st).flatMap (fun st1 => iterRep f n st1)

/-- All the ways the pattern matches at a position, in the order in which a
leftmost-first matcher prefers them. -/
def Regex.run : Regex → MState → List MState
  | .beginText, st => if st.pos = 0 then [st] else []
  | .endText, st => if st.rest.isEmpty then [st] else []
  | .cls p, st =>
    match st.rest with
    | [] => []
    | c :: cs => if p c then [{ st with pos := st.pos + 1, rest := cs }] else []
  | .seq a b, st => (a.run st).flatMap (fun st1 => b.run st1)
  | .plus a, st => iterPlus (fun st1 => a.run st1) (st.rest.length + 1) st
  | .rep n a, st => iterRep (fun st1 => a.run st1) n st
  | .group i a, st =>
    (a.run st).map (fun st1 =>
      { st1 with caps := (i, st.rest.take (st1.pos - st.pos)) :: st1.caps })

/-- The leftmost match of the pattern in the text that starts at or after the given
position, if any. -/
def Regex.searchFrom (re : Regex) : Nat → List Char → Option (Nat × MState)
  | pos, [] => ((re.run ⟨pos, [], []⟩).head?).map (fun m => (pos, m))
  | pos, c :: cs =>
    match (re.run ⟨pos, c :: cs, []⟩).head? with
    | some m => some (pos, m)
    | none => re.searchFrom (pos + 1) cs

/-- Model of `(*Regexp).MatchString`. -/
def Regex.matchString (re : Regex) (s : String) : Bool :=
  (re.searchFrom 0 s.toList).isSome

/-- Text of capture group `i` in a list of closed groups; the empty text when the
group took no part in the match. -/
def capText (caps : List (Nat × List Char)) (i : Nat) : List Char :=
  match caps.find? (fun c => c.1 == i) with
  | some c => c.2
  | none => []

/-- Model of `(*Regexp).FindStringSubmatch` for a pattern with `ngroups` capturing
groups: the whole match followed by the text of each group, or the empty slice when
there is no match. -/
def Regex.findStringSubmatch (re : Regex) (ngroups : Nat) (s : String) : List (List Char) :=
  match re.searchFrom 0 s.toList with
  | none => []
  | some (start, m) =>
    ((s.toList.drop start).take (m.pos - start)) ::
      (List.range ngroups).map (fun i => capText m.caps (i + 1))

/-- The number of successive non-overlapping matches found from a position on; an empty
match moves on by one character. -/
def Regex.countAllFrom (re : Regex) : Nat → Nat → List Char → Nat
  | 0, _, _ => 0
  | fuel + 1, pos, rest =>
    match (re.run ⟨pos, rest, []⟩).head? with
    | some m =>
      if m.pos = pos then
        match rest with
        | [] => 1
        | _ :: cs => 1 + re.countAllFrom fuel (pos + 1) cs
      else 1 + re.countAllFrom fuel m.pos m.rest
    | none =>
      match rest with
      | [] => 0
      | _ :: cs => re.countAllFrom fuel (pos + 1) cs

/-- Model of `len(re.FindAllString(s, -1))`. -/
def Regex.findAllCount (re : Regex) (s : String) : Nat :=
  re.countAllFrom (s.toList.length + 1) 0 s.toList

/-- The class `\d` of RE2: the ASCII digits. -/
def isDigit (c : Char) : Bool := '0'.toNat ≤ c.toNat && c.toNat ≤ '9'.toNat

/-- The class `[a-zA-Z0-9]`. -/
def isAlnum (c : Char) : Bool :=
  ('a'.toNat ≤ c.toNat && c.toNat ≤ 'z'.toNat) || ('A'.toNat ≤ c.toNat && c.toNat ≤ 'Z'.toNat)
    || ('0'.toNat ≤ c.toNat && c.toNat ≤ '9'.toNat)

/-- A literal character. -/
def isLit (c : Char) (d : Char) : Bool := d == c

/-- Pattern `[a-zA-Z0-9]` of Rule 1. -/
def reAlnum : Regex := .cls isAlnum

/-- Pattern `^\d{4}-(\d{2})-(\d{2})$` of `isOddDay`. -/
def reDate : Regex :=
  .seq .beginText (.seq (.rep 4 (.cls isDigit)) (.seq (.cls (isLit '-'))
    (.seq (.group 1 (.rep 2 (.cls isDigit))) (.seq (.cls (isLit '-'))
      (.seq (.group 2 (.rep 2 (.cls isDigit))) .endText)))))

/-- Pattern `^(\d{2}):(\d{2})$` of `isAfternoon`. -/
def reTime : Regex :=
  .seq .beginText (.seq (.group 1 (.rep 2 (.cls isDigit))) (.seq (.cls (isLit ':'))
    (.seq (.group 2 (.rep 2 (.cls isDigit))) .endText)))

/-- Pattern `^\d+\.\d{2}$` of `isValidTotal`. -/
def reTotal : Regex :=
  .seq .beginText (.seq (.plus (.cls isDigit)) (.seq (.cls (isLit '.'))
    (.seq (.rep 2 (.cls isDigit)) .endText)))

/-! ## `strconv.Atoi` -/

/-- Value of a decimal digit character. -/
def digitVal (c : Char) : Nat := c.toNat - 48

/-- Value of a sequence of decimal digits, most significant first. -/
def digitsVal (ds : List Char) : Nat := ds.foldl (fun acc c => acc * 10 + digitVal c) 0

/-- Model of `strconv.Atoi` on a 64-bit platform: an optional sign followed by one or
more decimal digits, in the range of `int`; `none` stands for a non-nil error. -/
def atoi (s : List Char) : Option Int :=
  let neg : Bool := s.head? == some '-'
  let body : List Char := if s.head? == some '-' || s.head? == some '+' then s.tail else s
  if body.isEmpty || !body.all isDigit then none
  else
    let v : Int := if neg then -(digitsVal body : Int) else (digitsVal body : Int)
    if v < -(2 : Int) ^ 63 || (2 : Int) ^ 63 ≤ v then none else some v

/-! ## IEEE-754 binary64 (`float64`)

A finite binary64 value is a whole number of units of `2^-1074`, the least positive
value, with a sign. Every operation computes the exact result and rounds it to the
nearest representable value, ties to even. -/

/-- The number of units of `2^-1074` in the value one. -/
@[irreducible] def unit : Nat := 2 ^ 1074

/-- The least number of units that no finite binary64 value reaches: `2^1024`. -/
@[irreducible] def overflowUnits : Nat := 2 ^ 2098

/-- Values of type `float64`. `fin neg k` is `k` units of `2^-1074`, negated when `neg`. -/
inductive F64 where
  | nan : F64
  | inf (neg : Bool) : F64
  | fin (neg : Bool) (k : Nat) : F64
  deriving DecidableEq

/-- Floor of the binary logarithm, by repeated halving. -/
def log2Fuel : Nat → Nat → Nat
  | 0, _ => 0
  | fuel + 1, n => if n < 2 then 0 else log2Fuel fuel (n / 2) + 1

/-- Floor of the binary logarithm of a positive number (`0` for `0`). -/
def ilog2 (n : Nat) : Nat := log2Fuel n n

/-- The quotient `a / b` rounded to the nearest whole number, ties to even. -/
def rne (a b : Nat) : Nat :=
  if 2 * (a % b) < b then a / b
  else if b < 2 * (a % b) then a / b + 1
  else a / b + (a / b) % 2

/-- The number of units nearest to `p / q` units that a 53-bit significand can hold,
before the check for overflow: below `2^53` units the spacing is one unit (subnormal
values and the first binade), above it doubles with every binade. -/
def roundUnits (p q : Nat) : Nat :=
  rne p (q * 2 ^ (ilog2 (p / q) - 52)) * 2 ^ (ilog2 (p / q) - 52)

/-- The binary64 value nearest to `± p / q`; an infinity when it overflows. -/
def F64.ofRat (neg : Bool) (p q : Nat) : F64 :=
  if overflowUnits ≤ roundUnits (p * unit) q then .inf neg
  else .fin neg (roundUnits (p * unit) q)

/-- Product of two `float64` values. -/
def F64.mul : F64 → F64 → F64
  | .nan, _ => .nan
  | _, .nan => .nan
  | .inf a, .inf b => .inf (a != b)
  | .inf a, .fin b k => if k = 0 then .nan else .inf (a != b)
  | .fin a k, .inf b => if k = 0 then .nan else .inf (a != b)
  | .fin a k1, .fin b k2 =>
    if overflowUnits ≤ roundUnits (k1 * k2) unit then .inf (a != b)
    else .fin (a != b) (roundUnits (k1 * k2) unit)

/-- Model of `math.Ceil`. -/
def F64.ceil : F64 → F64
  | .fin false k => .fin false ((k + (unit - 1)) / unit * unit)
  | .fin true k => .fin true (k / unit * unit)
  | x => x

/-- Conversion `int(x)` of a `float64` on amd64: truncation toward zero; a value that
`int` cannot hold (also a NaN or an infinity) gives the least `int`. The language leaves
that case to the implementation. -/
def F64.toInt : F64 → Int
  | .fin neg k =>
    let v : Int := if neg then -((k / unit : Nat) : Int) else ((k / unit : Nat) : Int)
    if v < -(2 : Int) ^ 63 ∨ (2 : Int) ^ 63 ≤ v then -(2 : Int) ^ 63 else v
  | _ => -(2 : Int) ^ 63

/-- Conversion `float64(i)` of an `int`. -/
def F64.ofInt (i : Int) : F64 :=
  .fin (decide (i < 0)) (roundUnits (i.natAbs * unit) 1)

/-- Comparison `x == y` of two `float64` values. -/
def F64.eq : F64 → F64 → Bool
  | .fin a k1, .fin b k2 => k1 == k2 && (a == b || k1 == 0)
  | .inf a, .inf b => a == b
  | _, _ => false

/-- The constant `100` as a `float64`. -/
def f100 : F64 := .fin false (100 * unit)

/-- The constant `0.2` as a `float64`: `3602879701896397 / 2^54`. -/
def f02 : F64 := .fin false (3602879701896397 * 2 ^ 1020)

/-! ## `strconv.ParseFloat` -/

/-- The two kinds of error of package `strconv`. -/
inductive NumError where
  | errSyntax : NumError
  | errRange : NumError
  deriving DecidableEq

/-- Lower-case form of an ASCII letter. -/
def lower (c : Char) : Char :=
  if 'A'.toNat ≤ c.toNat ∧ c.toNat ≤ 'Z'.toNat then Char.ofNat (c.toNat + 32) else c

/-- The hexadecimal digits that are letters. -/
def isHexLetter (c : Char) : Bool :=
  ('a'.toNat ≤ c.toNat && c.toNat ≤ 'f'.toNat) || ('A'.toNat ≤ c.toNat && c.toNat ≤ 'F'.toNat)

/-- Value of a hexadecimal digit that is a letter. -/
def hexLetterVal (c : Char) : Nat := (lower c).toNat - 87

/-- The texts `inf`, `infinity` (with an optional sign) and `nan`, in any case. -/
def special (s : List Char) : Option F64 :=
  let signed : Bool := s.head? == some '+' || s.head? == some '-'
  let body : List Char := if signed then s.tail else s
  if body.map lower == "inf".toList || body.map lower == "infinity".toList then
    some (.inf (s.head? == some '-'))
  else if s.map lower == "nan".toList then some .nan
  else none

/-- What has been read of a mantissa: the digits as a whole number, how many of them
came after the point, and whether a point and a digit were seen. -/
structure Mantissa where
  mant : Nat
  fracDigits : Nat
  sawdot : Bool
  sawdigits : Bool

/-- The mantissa loop of `readFloat`: digits of the base, underscores and one point;
returns what is left of the text. -/
def readMantissa (base : Nat) : List Char → Mantissa → Mantissa × List Char
  | [], m => (m, [])
  | c :: cs, m =>
    if c = '_' then readMantissa base cs m
    else if c = '.' then
      if m.sawdot then (m, c :: cs) else readMantissa base cs { m with sawdot := true }
    else if isDigit c then
      readMantissa base cs
        { m with sawdigits := true, mant := m.mant * base + digitVal c,
                 fracDigits := if m.sawdot then m.fracDigits + 1 else m.fracDigits }
    else if base = 16 ∧ isHexLetter c = true then
      readMantissa base cs
        { m with sawdigits := true, mant := m.mant * base + hexLetterVal c,
                 fracDigits := if m.sawdot then m.fracDigits + 1 else m.fracDigits }
    else (m, c :: cs)

/-- The exponent loop of `readFloat`: digits and underscores; the exponent stops growing
once it has reached 10000. -/
def readExponent : List Char → Nat → Nat × List Char
  | [], e => (e, [])
  | c :: cs, e =>
    if c = '_' then readExponent cs e
    else if isDigit c then readExponent cs (if e < 10000 then e * 10 + digitVal c else e)
    else (e, c :: cs)

/-- The scan of `underscoreOK`; `saw` is the kind of the last character. -/
def underscoreScan (hex : Bool) : List Char → Char → Bool
  | [], saw => saw != '_'
  | c :: cs, saw =>
    if isDigit c || (hex && isHexLetter c) then underscoreScan hex cs '0'
    else if c = '_' then
      if saw != '0' then false else underscoreScan hex cs '_'
    else if saw = '_' then false
    else underscoreScan hex cs '!'

/-- Model of `underscoreOK`: an underscore stands only between digits, or between a base
prefix and a digit. -/
def underscoreOK (s : List Char) : Bool :=
  let s1 : List Char := if s.head? == some '-' || s.head? == some '+' then s.tail else s
  let pre : Bool :=
    match s1 with
    | a :: b :: _ => a == '0' && (lower b == 'b' || lower b == 'o' || lower b == 'x')
    | _ => false
  let hex : Bool := pre && (s1.tail.head?.map lower == some 'x')
  underscoreScan hex (if pre then s1.drop 2 else s1) (if pre then '0' else '^')

/-- The value `± mant * base ^ x`, rounded; a range error when it overflows. -/
def scaled (neg : Bool) (mant base : Nat) (x : Int) : Except NumError F64 :=
  match (if 0 ≤ x then F64.ofRat neg (mant * base ^ x.toNat) 1
         else F64.ofRat neg mant (base ^ (-x).toNat)) with
  | .inf _ => .error .errRange
  | f => .ok f

/-- The test of `readFloat` for the prefix `0x` of a hexadecimal mantissa; something
must follow the prefix. -/
def hasHexPrefix (l : List Char) : Bool :=
  match l with
  | a :: b :: _ :: _ => a == '0' && lower b == 'x'
  | _ => false

/-- The optional exponent of `readFloat`, read from what follows the mantissa, to the end
of the text: its signed value, or `none` for a syntax error. A hexadecimal mantissa must
have an exponent. -/
def readExponentPart (hex : Bool) (l3 : List Char) : Option Int :=
  match l3 with
  | [] => if hex then none else some 0
  | c :: r3 =>
    if lower c != (if hex then 'p' else 'e') then none
    else if !((if r3.head? == some '+' || r3.head? == some '-' then r3.tail else r3).head?.map
        isDigit).getD false then none
    else if !(readExponent
        (if r3.head? == some '+' || r3.head? == some '-' then r3.tail else r3) 0).2.isEmpty
    then none
    else if r3.head? == some '-' then
      some (-((readExponent r3.tail 0).1 : Int))
    else
      some ((readExponent
        (if r3.head? == some '+' then r3.tail else r3) 0).1 : Int)

/-- Model of `readFloat` and of the conversion that follows it: an optional sign, a
decimal or hexadecimal mantissa, an optional exponent, and nothing else. -/
def parseNumber (l : List Char) : Except NumError F64 :=
  let neg : Bool := l.head? == some '-'
  let l1 : List Char := if l.head? == some '+' || l.head? == some '-' then l.tail else l
  let hex : Bool := hasHexPrefix l1
  let m := readMantissa (if hex then 16 else 10) (if hex then l1.drop 2 else l1)
    ⟨0, 0, false, false⟩
  if l.isEmpty || !m.1.sawdigits then .error .errSyntax
  else
    match readExponentPart hex m.2 with
    | none => .error .errSyntax
    | some e =>
      if !underscoreOK l then .error .errSyntax
      else
        scaled neg m.1.mant (if hex then 2 else 10)
          (e - ((m.1.fracDigits * (if hex then 4 else 1) : Nat) : Int))

/-- Model of `strconv.ParseFloat(s, 64)`: the whole text must be `inf`, `infinity`, `nan`
or a decimal or hexadecimal floating-point literal, and the result is the `float64`
nearest to its value. -/
def parseFloat (s : String) : Except NumError F64 :=
  match special s.toList with
  | some f => .ok f
  | none => parseNumber s.toList

/-! ## Strings -/

/-- Model of `unicode.IsSpace`. -/
def isSpace (c : Char) : Bool :=
  (9 ≤ c.toNat && c.toNat ≤ 13) || c.toNat == 0x20 || c.toNat == 0x85 || c.toNat == 0xA0
    || c.toNat == 0x1680 || (0x2000 ≤ c.toNat && c.toNat ≤ 0x200A) || c.toNat == 0x2028
    || c.toNat == 0x2029 || c.toNat == 0x202F || c.toNat == 0x205F || c.toNat == 0x3000

/-- Model of `strings.TrimSpace`. -/
def trimSpace (s : List Char) : List Char :=
  ((s.dropWhile isSpace).reverse.dropWhile isSpace).reverse

/-- Number of bytes of the UTF-8 encoding of a character. -/
def utf8Len (c : Char) : Nat :=
  if c.toNat ≤ 0x7F then 1 else if c.toNat ≤ 0x7FF then 2 else if c.toNat ≤ 0xFFFF then 3 else 4

/-- Model of `len(s)` for a Go string: its length in bytes. -/
def byteLen (s : List Char) : Nat := (s.map utf8Len).sum

/-! ## Format validators -/

/-- Source: `isValidTotal`. -/
def isValidTotal (total : String) : Bool :=
  reTotal.matchString total

/-- Source: `isOddDay`. -/
def isOddDay (date : String) : Bool :=
  let ms := reDate.findStringSubmatch 2 date
  if ms.length ≠ 3 then false
  else
    match atoi (ms.getD 2 []) with
    | none => false
    | some day => Int.tmod day 2 != 0

/-- Source: `isAfternoon`. -/
def isAfternoon (time : String) : Bool :=
  let ms := reTime.findStringSubmatch 2 time
  if ms.length ≠ 3 then false
  else
    match atoi (ms.getD 1 []) with
    | none => false
    | some hour => decide (hour ≥ 14) && decide (hour < 16)

/-! ## Data model -/

/-- Source: `Item`. -/
structure Item where
  shortDescription : String
  price : String
  deriving DecidableEq

/-- Source: `Receipt`. -/
structure Receipt where
  retailer : String
  purchaseDate : String
  purchaseTime : String
  items : List Item
  total : String
  deriving DecidableEq

/-! ## Point calculation -/

/-- Addition on `int` wraps around: the representative of a number in the range of a
64-bit two's-complement integer. -/
def wrap64 (x : Int) : Int := (x + (2 : Int) ^ 63) % (2 : Int) ^ 64 - (2 : Int) ^ 63

/-- The condition under which Rule 2 adds its 50 points: the total parses and
`val == float64(int(val))`. -/
def rule2Fires (total : String) : Bool :=
  match parseFloat total with
  | .ok val => F64.eq val (F64.ofInt (F64.toInt val))
  | .error _ => false

/-- The condition under which Rule 3 adds its 25 points: the total parses and
`int(val*100)%25 == 0`. -/
def rule3Fires (total : String) : Bool :=
  match parseFloat total with
  | .ok val => Int.tmod (F64.toInt (F64.mul val f100)) 25 == 0
  | .error _ => false

/-- The points that the body of the Rule 5 loop adds for one item, if it adds any:
`int(math.Ceil(val * 0.2))` when the trimmed description has a length divisible by 3 and
the price parses. -/
def rule5Item (item : Item) : Option Int :=
  if byteLen (trimSpace item.shortDescription.toList) % 3 == 0 then
    match parseFloat item.price with
    | .ok val => some (F64.toInt (F64.ceil (F64.mul val f02)))
    | .error _ => none
  else none

/-- Source: `calculatePoints`. -/
def calculatePoints (receipt : Receipt) : Int :=
  let points : Int := 0
  -- Rule 1
  let points := wrap64 (points + (reAlnum.findAllCount receipt.retailer : Nat))
  -- Rule 2
  let points := if rule2Fires receipt.total then wrap64 (points + 50) else points
  -- Rule 3
  let points := if rule3Fires receipt.total then wrap64 (points + 25) else points
  -- Rule 4
  let points := wrap64 (points + ((receipt.items.length / 2 : Nat) : Int) * 5)
  -- Rule 5
  let points := receipt.items.foldl
    (fun pts item =>
      match rule5Item item with
      | some earned => wrap64 (pts + earned)
      | none => pts) points
  -- Rule 6
  let points := if isOddDay receipt.purchaseDate then wrap64 (points + 6) else points
  -- Rule 7
  let points := if isAfternoon receipt.purchaseTime then wrap64 (points + 10) else points
  points

/-! ## The store and the two handlers -/

/-- A Go `map[string]V` as a list of entries with distinct keys. -/
abbrev GoMap (V : Type) := List (String × V)

/-- Lookup `m[k]` with its presence flag. -/
def GoMap.get {V : Type} (m : GoMap V) (k : String) : Option V :=
  match m with
  | [] => none
  | (k1, v) :: rest => if k1 = k then some v else GoMap.get rest k

/-- Assignment `m[k] = v`. -/
def GoMap.set {V : Type} (m : GoMap V) (k : String) (v : V) : GoMap V :=
  (k, v) :: m.filter (fun e => e.1 != k)

/-- The two package-level maps `receipts` and `points`. -/
structure Store where
  receipts : GoMap Receipt
  points : GoMap Int
  deriving DecidableEq

/-- The maps as the program creates them. -/
def Store.empty : Store := ⟨[], []⟩

/-- The JSON body of a response. -/
inductive Body where
  | error (msg : String) : Body
  | id (id : String) : Body
  | points (n : Int) : Body
  deriving DecidableEq

/-- A response: HTTP status and body. -/
structure Response where
  status : Nat
  body : Body
  deriving DecidableEq

/-- Source: `processReceipt`. `bound` is the outcome of `c.ShouldBindJSON(&receipt)`, the
framework's decoding and structural validation of the request body, and `newId` the
text of the identifier that `uuid.New()` draws. -/
def processReceipt (st : Store) (bound : Except String Receipt) (newId : String) :
    Response × Store :=
  match bound with
  | .error msg => (⟨400, .error msg⟩, st)
  | .ok receipt =>
    if !isValidTotal receipt.total then (⟨400, .error "Invalid total format"⟩, st)
    else
      let id := newId
      let st1 : Store := { st with receipts := st.receipts.set id receipt }
      let st2 : Store := { st1 with points := st1.points.set id (calculatePoints receipt) }
      (⟨200, .id id⟩, st2)

/-- Source: `getPoints`. -/
def getPoints (st : Store) (id : String) : Response × Store :=
  match st.receipts.get id with
  | none => (⟨404, .error "Receipt not found"⟩, st)
  | some _ => (⟨200, .points ((st.points.get id).getD 0)⟩, st)

/-- One request to the service. -/
inductive Op where
  | process (bound : Except String Receipt) (newId : String) : Op
  | lookup (id : String) : Op

/-- The handler that serves a request. -/
def step (st : Store) : Op → Response × Store
  | .process bound newId => processReceipt st bound newId
  | .lookup id => getPoints st id

/-- Serve a sequence of requests one after the other; next to the store, keep the
identifiers that successful inserts have returned (latest first). -/
def execFrom (st : Store) (ids : List String) : List Op → Store × List String
  | [] => (st, ids)
  | op :: ops =>
    match op, (step st op).1.body with
    | .process _ _, .id i => execFrom (step st op).2 (i :: ids) ops
    | _, _ => execFrom (step st op).2 ids ops

/-- The store and the returned identifiers after a sequence of requests to a freshly
started service. -/
def exec (ops : List Op) : Store × List String := execFrom Store.empty [] ops

/-- The two maps hold the same identifiers: those that successful inserts returned. -/
def StoreInv (st : Store) (ids : List String) : Prop :=
  ∀ id, ((st.receipts.get id).isSome ↔ id ∈ ids) ∧ ((st.points.get id).isSome ↔ id ∈ ids)

/-! ## Vocabulary of the specification -/

/-- An ASCII digit. -/
def IsAsciiDigit (c : Char) : Prop := c ∈ ['0', '1', '2', '3', '4', '5', '6', '7', '8', '9']

/-- One or more digits, a point, exactly two digits, and nothing else. -/
def TotalShape (t : String) : Prop :=
  ∃ ds d1 d2, ds ≠ [] ∧ (∀ c ∈ ds, IsAsciiDigit c) ∧ IsAsciiDigit d1 ∧ IsAsciiDigit d2 ∧
    t.toList = ds ++ ['.', d1, d2]

/-- Four digits, a hyphen, two digits, a hyphen, two digits: `YYYY-MM-DD`. The last
component is the pair of day digits. -/
def DateShape (d : String) (d1 d2 : Char) : Prop :=
  ∃ y1 y2 y3 y4 m1 m2, IsAsciiDigit y1 ∧ IsAsciiDigit y2 ∧ IsAsciiDigit y3 ∧ IsAsciiDigit y4 ∧
    IsAsciiDigit m1 ∧ IsAsciiDigit m2 ∧ IsAsciiDigit d1 ∧ IsAsciiDigit d2 ∧
    d.toList = [y1, y2, y3, y4, '-', m1, m2, '-', d1, d2]

/-- Two digits, a colon, two digits: `HH:MM`, with the hour and minute digits named. -/
def TimeShape (t : String) (h1 h2 m1 m2 : Char) : Prop :=
  IsAsciiDigit h1 ∧ IsAsciiDigit h2 ∧ IsAsciiDigit m1 ∧ IsAsciiDigit m2 ∧
    t.toList = [h1, h2, ':', m1, m2]

/-- Two digits read as a number in base ten. -/
def twoDigits (a b : Char) : Nat := (a.toNat - '0'.toNat) * 10 + (b.toNat - '0'.toNat)

/-- The receipt of the worked example of the specification. -/
def fixtureReceipt : Receipt :=
  { retailer := "Target", purchaseDate := "2022-01-01", purchaseTime := "13:01",
    items := [⟨"Mountain Dew 12PK", "6.49"⟩, ⟨"Emils Cheese Pizza", "12.25"⟩,
      ⟨"Knorr Creamy Chicken", "1.26"⟩, ⟨"Doritos Nacho Cheese", "3.35"⟩,
      ⟨"   Klarbrunn 12-PK 12 FL OZ  ", "12.00"⟩],
    total := "35.35" }

/-- The digits of an amount with the decimal point removed, read as a whole number:
the amount in cents when it has two fractional digits. -/
def decimalCents (t : String) : Nat := digitsVal (t.toList.filter (fun c => c != '.'))

/-- The least whole number not below a fifth of an amount given in cents, in whole
units: the ceiling of `price * 0.2` for a price of `cents / 100`. -/
def ceilFifth (cents : Nat) : Nat := (cents + 499) / 500

/-- Rule 5 as the specification words it, for an item whose price has two decimals: the
ceiling of `price * 0.2` when the trimmed description has a length divisible by 3. -/
def rule5Spec (item : Item) : Nat :=
  if byteLen (trimSpace item.shortDescription.toList) % 3 = 0 then
    ceilFifth (decimalCents item.price)
  else 0

/-- The sum of the contributions of the rules other than Rules 2 and 3, as the
specification words them. -/
def otherRulesSpec (r : Receipt) : Nat :=
  r.retailer.toList.countP Char.isAlphanum
    + 5 * (r.items.length / 2)
    + (r.items.map rule5Spec).sum
    + (if isOddDay r.purchaseDate then 6 else 0)
    + (if isAfternoon r.purchaseTime then 10 else 0)

/-- The sum of the seven rule contributions, as the specification words them. -/
def specPoints (r : Receipt) : Nat :=
  otherRulesSpec r
    + (if decimalCents r.total % 100 = 0 then 50 else 0)
    + (if decimalCents r.total % 25 = 0 then 25 else 0)

/-- The sum of what the program adds for the rules other than Rules 2 and 3, before
wrapping. -/
def otherRulesPoints (r : Receipt) : Int :=
  (reAlnum.findAllCount r.retailer : Nat)
    + ((r.items.length / 2 : Nat) : Int) * 5
    + (r.items.map (fun item => (rule5Item item).getD 0)).sum
    + (if isOddDay r.purchaseDate = true then 6 else 0)
    + (if isAfternoon r.purchaseTime = true then 10 else 0)

/-- A receipt that the store accepts: every required text is non-empty, there is at least
one item, every item has a description and a price, and the total is valid. -/
def Accepted (r : Receipt) : Prop :=
  r.retailer ≠ "" ∧ r.purchaseDate ≠ "" ∧ r.purchaseTime ≠ "" ∧ r.items ≠ [] ∧
    (∀ it ∈ r.items, it.shortDescription ≠ "" ∧ it.price ≠ "") ∧ isValidTotal r.total = true

/-- A small receipt with the total `2.01`: only Rule 1 applies to it. -/
def slipReceipt : Receipt :=
  { retailer := "A", purchaseDate := "2022-01-02", purchaseTime := "13:01",
    items := [⟨"ab", "1.00"⟩], total := "2.01" }

/-- The small receipt with a whole-dollar total beyond the integers that `float64` holds
after the multiplication by 100. -/
def bigTotalReceipt : Receipt := { slipReceipt with total := "360287970189641.00" }

/-- The small receipt with one item that Rule 5 applies to, of a price beyond the
precision of `float64`, and the total `2.02`. -/
def bigPriceReceipt : Receipt :=
  { slipReceipt with items := [⟨"abc", "10000000000000000.01"⟩], total := "2.02" }

/-- The small receipt with one item that Rule 5 applies to, of a negative price. -/
def negativePriceReceipt : Receipt :=
  { slipReceipt with items := [⟨"abc", "-100.00"⟩], total := "2.02" }

/-- The small receipt with two items that Rule 5 applies to, whose points each fit an
`int` while their sum does not. -/
def wrapReceipt : Receipt :=
  { slipReceipt with
    items := [⟨"abc", "40000000000000000000.00"⟩, ⟨"abc", "40000000000000000000.00"⟩],
    total := "2.02" }

/-- The sum that `calculatePoints` accumulates, before any wrapping. -/
def rawPoints (r : Receipt) : Int :=
  otherRulesPoints r + (if rule2Fires r.total = true then 50 else 0)
    + (if rule3Fires r.total = true then 25 else 0)

/-- An item that Rule 5 applies to, with a price beyond the precision of `float64`. -/
def bigPriceItem : Item := ⟨"abc", "10000000000000000.01"⟩

/-- A receipt whose accumulated sum is the greatest `int`, with a retailer that has no
letter or digit. -/
def nearWrapReceipt : Receipt :=
  { retailer := "-", purchaseDate := "2022-01-02", purchaseTime := "13:01",
    items := [⟨"abc", "46116860184273867264.00"⟩, ⟨"abc", "5090.00"⟩], total := "2.02" }

/-- The worked example with the price of its pizza beyond the precision of `float64`. -/
def bigFixtureReceipt : Receipt :=
  { fixtureReceipt with
    items := [⟨"Mountain Dew 12PK", "6.49"⟩, ⟨"Emils Cheese Pizza", "10000000000000000.01"⟩,
      ⟨"Knorr Creamy Chicken", "1.26"⟩, ⟨"Doritos Nacho Cheese", "3.35"⟩,
      ⟨"   Klarbrunn 12-PK 12 FL OZ  ", "12.00"⟩] }

/-- The condition of Rule 5 on the description of an item. -/
def rule5Applies (item : Item) : Bool :=
  byteLen (trimSpace item.shortDescription.toList) % 3 == 0

/-- The identifiers under which a map has an entry. -/
def GoMap.keys {V : Type} (m : GoMap V) : List String := m.map Prod.fst

/-- The store is consistent: the two maps hold the same identifiers, each once, and the
score stored under an identifier is `calculatePoints` of the receipt stored under it. -/
def StoreConsistent (st : Store) : Prop :=
  (∀ id, (st.receipts.get id).isSome ↔ (st.points.get id).isSome) ∧
    (∀ id r, st.receipts.get id = some r → st.points.get id = some (calculatePoints r)) ∧
    st.receipts.keys.Nodup ∧ st.points.keys.Nodup

/-- The identifier that `uuid.New()` draws while a request is served, if the handler gets
as far as calling it: the payload binds and its total is valid. -/
def drawnId : Op → Option String
  | .process (.ok receipt) newId => if isValidTotal receipt.total then some newId else none
  | _ => none

/-- The identifiers that `uuid.New()` draws during a sequence of requests, in order. -/
def draws (ops : List Op) : List String := ops.filterMap drawnId

/-! ## Facts about the matcher -/

theorem flatMap_ite_nil {α β : Type} (c : Prop) [Decidable c] (l : List α) (f : α → List β) :
    (if c then l else []).flatMap f = if c then l.flatMap f else [] := by
  split <;> simp

theorem map_ite_nil {α β : Type} (c : Prop) [Decidable c] (l : List α) (f : α → β) :
    (if c then l else []).map f = if c then l.map f else [] := by
  split <;> simp

theorem head?_ite_nil {α : Type} (c : Prop) [Decidable c] (l : List α) :
    (if c then l else []).head? = if c then l.head? else none := by
  split <;> simp

theorem run_begin (r : Regex) (st : MState) :
    (Regex.seq .beginText r).run st = if st.pos = 0 then r.run st else [] := by
  simp only [Regex.run]
  split <;> simp

theorem searchFrom_begin_pos (r : Regex) (s : List Char) :
    ∀ pos, pos ≠ 0 → (Regex.seq .beginText r).searchFrom pos s = none := by
  induction s with
  | nil => intro pos h; simp [Regex.searchFrom, run_begin, h]
  | cons c cs ih =>
    intro pos h
    rw [Regex.searchFrom, run_begin]
    simp [h, ih]

theorem searchFrom_begin_zero (r : Regex) (s : List Char) :
    (Regex.seq .beginText r).searchFrom 0 s
      = ((r.run ⟨0, s, []⟩).head?).map (fun m => (0, m)) := by
  cases s with
  | nil => simp [Regex.searchFrom, run_begin]
  | cons c cs =>
    rw [Regex.searchFrom, run_begin]
    simp only [if_true]
    cases h : (r.run ⟨0, c :: cs, []⟩).head? with
    | none => simp [searchFrom_begin_pos]
    | some m => simp

/-- What `FindStringSubmatch` returns for the time pattern on a text of five characters. -/
theorem findSubmatch_reTime_shape (s : String) (a b c d e : Char)
    (hs : s.toList = [a, b, c, d, e]) :
    reTime.findStringSubmatch 2 s =
      if isDigit a && isDigit b && c == ':' && isDigit d && isDigit e
      then [[a, b, c, d, e], [a, b], [d, e]] else [] := by
  unfold Regex.findStringSubmatch reTime
  rw [searchFrom_begin_zero, hs]
  simp only [Regex.run, iterRep, isLit, flatMap_ite_nil, map_ite_nil, head?_ite_nil,
    List.flatMap_cons, List.flatMap_nil, List.append_nil, List.map_cons, List.map_nil,
    List.isEmpty_nil, if_true, beq_iff_eq]
  by_cases ha : isDigit a = true
  swap; · simp [ha]
  by_cases hb : isDigit b = true
  swap; · simp [hb]
  by_cases hc : c = ':'
  swap; · simp [hc]
  by_cases hd : isDigit d = true
  swap; · simp [hd]
  by_cases he : isDigit e = true
  swap; · simp [he]
  simp [ha, hb, hc, hd, he, capText, List.range, List.range.loop]

/-- The time pattern matches no text of another length. -/
theorem findSubmatch_reTime_length (s : String) (hs : s.toList.length ≠ 5) :
    reTime.findStringSubmatch 2 s = [] := by
  unfold Regex.findStringSubmatch reTime
  rw [searchFrom_begin_zero]
  generalize s.toList = l at hs
  rcases l with _ | ⟨a, _ | ⟨b, _ | ⟨c, _ | ⟨d, _ | ⟨e, _ | ⟨f, l⟩⟩⟩⟩⟩⟩ <;>
    simp [Regex.run, iterRep, isLit, capText, flatMap_ite_nil, map_ite_nil, head?_ite_nil] at hs ⊢

/-- What `FindStringSubmatch` returns for the date pattern on a text of ten characters. -/
theorem findSubmatch_reDate_shape (s : String) (a b c d e f g h i j : Char)
    (hs : s.toList = [a, b, c, d, e, f, g, h, i, j]) :
    reDate.findStringSubmatch 2 s =
      if isDigit a && isDigit b && isDigit c && isDigit d && e == '-' && isDigit f
        && isDigit g && h == '-' && isDigit i && isDigit j
      then [[a, b, c, d, e, f, g, h, i, j], [f, g], [i, j]] else [] := by
  unfold Regex.findStringSubmatch reDate
  rw [searchFrom_begin_zero, hs]
  simp only [Regex.run, iterRep, isLit, flatMap_ite_nil, map_ite_nil, head?_ite_nil,
    List.flatMap_cons, List.flatMap_nil, List.append_nil, List.map_cons, List.map_nil,
    List.isEmpty_nil, if_true, beq_iff_eq]
  by_cases ha : isDigit a = true
  swap; · simp [ha]
  by_cases hb : isDigit b = true
  swap; · simp [hb]
  by_cases hc : isDigit c = true
  swap; · simp [hc]
  by_cases hd : isDigit d = true
  swap; · simp [hd]
  by_cases he : e = '-'
  swap; · simp [he]
  by_cases hf : isDigit f = true
  swap; · simp [hf]
  by_cases hg : isDigit g = true
  swap; · simp [hg]
  by_cases hh : h = '-'
  swap; · simp [hh]
  by_cases hi : isDigit i = true
  swap; · simp [hi]
  by_cases hj : isDigit j = true
  swap; · simp [hj]
  simp [ha, hb, hc, hd, he, hf, hg, hh, hi, hj, capText, List.range, List.range.loop]

/-- The date pattern matches no text of another length. -/
theorem findSubmatch_reDate_length (s : String) (hs : s.toList.length ≠ 10) :
    reDate.findStringSubmatch 2 s = [] := by
  unfold Regex.findStringSubmatch reDate
  rw [searchFrom_begin_zero]
  generalize s.toList = l at hs
  rcases l with _ | ⟨a, _ | ⟨b, _ | ⟨c, _ | ⟨d, _ | ⟨e, _ | ⟨f, _ | ⟨g, _ | ⟨h, _ |
    ⟨i, _ | ⟨j, _ | ⟨k, l⟩⟩⟩⟩⟩⟩⟩⟩⟩⟩⟩ <;>
    simp [Regex.run, iterRep, isLit, capText, flatMap_ite_nil, map_ite_nil, head?_ite_nil] at hs ⊢

/-- One character of a class. -/
theorem mem_run_cls (p : Char → Bool) (st m : MState) :
    m ∈ (Regex.cls p).run st ↔
      ∃ c cs, st.rest = c :: cs ∧ p c = true ∧ m = ⟨st.pos + 1, cs, st.caps⟩ := by
  obtain ⟨pos, rest, caps⟩ := st
  cases rest with
  | nil => simp [Regex.run]
  | cons c cs =>
    by_cases hp : p c = true
    · simp only [Regex.run, hp, if_true, List.mem_singleton]
      constructor
      · rintro rfl; exact ⟨c, cs, rfl, hp, rfl⟩
      · rintro ⟨c1, cs1, h, _, rfl⟩
        cases h; rfl
    · simp only [Regex.run, hp, Bool.false_eq_true, if_false, List.not_mem_nil, false_iff]
      rintro ⟨c1, cs1, h, hp1, _⟩
      cases h; exact hp hp1

/-- Every outcome of `p+` has read a non-empty run of characters of the class. -/
theorem mem_iterPlus_cls (p : Char → Bool) :
    ∀ (fuel : Nat) (st m : MState), m ∈ iterPlus (fun st1 => (Regex.cls p).run st1) fuel st →
      ∃ ds, ds ≠ [] ∧ (∀ c ∈ ds, p c = true) ∧ st.rest = ds ++ m.rest ∧
        m.pos = st.pos + ds.length ∧ m.caps = st.caps := by
  intro fuel
  induction fuel with
  | zero => intro st m h; simp [iterPlus] at h
  | succ n ih =>
    intro st m h
    simp only [iterPlus, List.mem_flatMap, List.mem_append, List.mem_singleton] at h
    obtain ⟨st1, h1, h2⟩ := h
    obtain ⟨c, cs, hr, hp, rfl⟩ := (mem_run_cls p st st1).1 h1
    rcases h2 with h2 | rfl
    · obtain ⟨ds, _, hall, hrest, hpos, hcaps⟩ := ih _ m h2
      refine ⟨c :: ds, by simp, ?_, ?_, ?_, hcaps⟩
      · intro x hx
        rcases List.mem_cons.1 hx with rfl | hx
        · exact hp
        · exact hall x hx
      · simp only at hrest
        simp [hr, hrest]
      · simp only at hpos
        simp [hpos]; omega
    · exact ⟨[c], by simp, by simpa using hp, by simp [hr], by simp, rfl⟩

/-- Every non-empty run of characters of the class is read by `p+`, given enough fuel. -/
theorem iterPlus_cls_mem (p : Char → Bool) :
    ∀ (ds : List Char) (fuel pos : Nat) (rest : List Char) (caps : List (Nat × List Char)),
      ds ≠ [] → ds.length ≤ fuel → (∀ c ∈ ds, p c = true) →
      (⟨pos + ds.length, rest, caps⟩ : MState) ∈
        iterPlus (fun st1 => (Regex.cls p).run st1) fuel ⟨pos, ds ++ rest, caps⟩ := by
  intro ds
  induction ds with
  | nil => intro fuel pos rest caps h; exact absurd rfl h
  | cons c cs ih =>
    intro fuel pos rest caps _ hlen hall
    cases fuel with
    | zero => simp at hlen
    | succ n =>
      have hc : p c = true := hall c (List.mem_cons_self _ _)
      simp only [iterPlus, List.mem_flatMap, List.mem_append, List.mem_singleton]
      refine ⟨⟨pos + 1, cs ++ rest, caps⟩, ?_, ?_⟩
      · exact (mem_run_cls p _ _).2 ⟨c, cs ++ rest, rfl, hc, rfl⟩
      · cases cs with
        | nil => right; simp
        | cons d ds =>
          left
          have := ih n (pos + 1) rest caps (by simp) (by simpa using hlen)
            (fun x hx => hall x (List.mem_cons_of_mem _ hx))
          have e : pos + 1 + (d :: ds).length = pos + (c :: d :: ds).length := by
            simp; omega
          rw [e] at this
          exact this

/-- The part of the total pattern after the integer digits: `\.\d{2}$`. -/
theorem run_totalTail (st : MState) :
    (Regex.seq (.cls (isLit '.')) (.seq (.rep 2 (.cls isDigit)) .endText)).run st ≠ [] ↔
      ∃ d1 d2, st.rest = ['.', d1, d2] ∧ isDigit d1 = true ∧ isDigit d2 = true := by
  obtain ⟨pos, rest, caps⟩ := st
  rcases rest with _ | ⟨a, _ | ⟨b, _ | ⟨c, _ | ⟨d, l⟩⟩⟩⟩ <;>
    simp [Regex.run, iterRep, isLit, flatMap_ite_nil, map_ite_nil]
  constructor
  · rintro ⟨h1, h2, h3⟩; exact ⟨b, c, ⟨h1, rfl, rfl⟩, h2, h3⟩
  · rintro ⟨d1, d2, ⟨h1, rfl, rfl⟩, h2, h3⟩; exact ⟨h1, h2, h3⟩

/-- The total pattern accepts exactly digits, a point and two digits. -/
theorem matchString_reTotal (s : String) :
    reTotal.matchString s = true ↔
      ∃ ds d1 d2, ds ≠ [] ∧ (∀ c ∈ ds, isDigit c = true) ∧ isDigit d1 = true ∧
        isDigit d2 = true ∧ s.toList = ds ++ ['.', d1, d2] := by
  unfold Regex.matchString reTotal
  rw [searchFrom_begin_zero]
  rw [Option.isSome_map', Option.isSome_iff_exists]
  simp only [List.head?_eq_some_iff]
  constructor
  · rintro ⟨m, tl, h⟩
    have hm : m ∈ (Regex.seq (.plus (.cls isDigit)) (.seq (.cls (isLit '.'))
        (.seq (.rep 2 (.cls isDigit)) .endText))).run ⟨0, s.toList, []⟩ := by
      rw [h]; exact List.mem_cons_self _ _
    rw [Regex.run, List.mem_flatMap] at hm
    obtain ⟨st1, h1, h2⟩ := hm
    rw [Regex.run] at h1
    obtain ⟨ds, hne, hall, hrest, _, _⟩ := mem_iterPlus_cls isDigit _ _ _ h1
    obtain ⟨d1, d2, hr, hd1, hd2⟩ := (run_totalTail st1).1 (List.ne_nil_of_mem h2)
    exact ⟨ds, d1, d2, hne, hall, hd1, hd2, by simpa [hr] using hrest⟩
  · rintro ⟨ds, d1, d2, hne, hall, hd1, hd2, hs⟩
    have h1 := iterPlus_cls_mem isDigit ds (s.toList.length + 1) 0 ['.', d1, d2] [] hne
      (by rw [hs]; simp; omega) hall
    have h2 := (run_totalTail ⟨0 + ds.length, ['.', d1, d2], []⟩).2 ⟨d1, d2, rfl, hd1, hd2⟩
    obtain ⟨m, hm⟩ := List.exists_mem_of_ne_nil _ h2
    have hmem : m ∈ (Regex.seq (.plus (.cls isDigit)) (.seq (.cls (isLit '.'))
        (.seq (.rep 2 (.cls isDigit)) .endText))).run ⟨0, s.toList, []⟩ := by
      rw [Regex.run, List.mem_flatMap]
      refine ⟨_, ?_, hm⟩
      rw [Regex.run]
      simp only [hs]
      have e : (ds ++ ['.', d1, d2]).length = s.toList.length := by rw [hs]
      rw [e]
      exact h1
    obtain ⟨x, xs, hx⟩ := List.exists_cons_of_ne_nil (List.ne_nil_of_mem hmem)
    exact ⟨x, xs, hx⟩

theorem isDigit_iff (c : Char) : isDigit c = true ↔ 48 ≤ c.toNat ∧ c.toNat ≤ 57 := by
  simp [isDigit]

theorem isDigit_not_sign {c : Char} (h : isDigit c = true) : c ≠ '-' ∧ c ≠ '+' := by
  constructor <;> (rintro rfl; simp [isDigit] at h)

theorem digitVal_lt_ten {c : Char} (h : isDigit c = true) : digitVal c < 10 := by
  rw [isDigit_iff] at h
  unfold digitVal
  omega

/-- `Atoi` on two digits never fails and reads them in base ten. -/
theorem atoi_two_digits {a b : Char} (ha : isDigit a = true) (hb : isDigit b = true) :
    atoi [a, b] = some ((digitVal a * 10 + digitVal b : Nat) : Int) := by
  have h1 := isDigit_not_sign ha
  have h3 := digitVal_lt_ten ha
  have h4 := digitVal_lt_ten hb
  have hlt : ¬ (((digitVal a * 10 + digitVal b : Nat) : Int) < -(2 : Int) ^ 63 ∨
      (2 : Int) ^ 63 ≤ ((digitVal a * 10 + digitVal b : Nat) : Int)) := by
    omega
  simp only [atoi, List.head?_cons, Option.some.injEq, beq_iff_eq, h1.1, h1.2, Bool.or_self,
    Bool.false_eq_true, if_false, List.isEmpty_cons, List.all_cons, ha, hb, List.all_nil,
    Bool.and_self, Bool.not_true, digitsVal, List.foldl_cons, List.foldl_nil, zero_mul, zero_add,
    Bool.or_eq_true, decide_eq_true_eq]
  simp only [or_self, if_false, List.isEmpty_cons, List.all_cons, List.all_nil, ha, hb,
    Bool.and_self, Bool.not_true, Bool.false_eq_true, List.foldl_cons, List.foldl_nil,
    zero_mul, zero_add]
  rw [if_neg hlt]

/-! ## Facts about the maps -/

theorem GoMap.get_filter_ne {V : Type} (m : GoMap V) (k k1 : String) (h : k1 ≠ k) :
    GoMap.get (m.filter (fun e => e.1 != k)) k1 = GoMap.get m k1 := by
  induction m with
  | nil => rfl
  | cons e rest ih =>
    obtain ⟨a, v⟩ := e
    by_cases ha : a = k
    · subst ha
      have : a ≠ k1 := fun e => h e.symm
      simp [List.filter_cons, GoMap.get, this, ih]
    · by_cases hb : a = k1
      · subst hb
        simp [List.filter_cons, GoMap.get, ha]
      · simp [List.filter_cons, GoMap.get, ha, hb, ih]

theorem GoMap.get_set_same {V : Type} (m : GoMap V) (k : String) (v : V) :
    (m.set k v).get k = some v := by
  simp [GoMap.set, GoMap.get]

theorem GoMap.get_set_other {V : Type} (m : GoMap V) (k k1 : String) (v : V) (h : k1 ≠ k) :
    (m.set k v).get k1 = m.get k1 := by
  have hk : k ≠ k1 := fun e => h e.symm
  simp only [GoMap.set, GoMap.get, hk, if_false]
  exact GoMap.get_filter_ne m k k1 h

/-! ## Facts about the handlers -/

theorem processReceipt_ok (st : Store) (r : Receipt) (newId : String)
    (h : isValidTotal r.total = true) :
    processReceipt st (.ok r) newId =
      (⟨200, .id newId⟩,
        ⟨st.receipts.set newId r, st.points.set newId (calculatePoints r)⟩) := by
  simp [processReceipt, h]

theorem processReceipt_invalid (st : Store) (r : Receipt) (newId : String)
    (h : isValidTotal r.total = false) :
    processReceipt st (.ok r) newId = (⟨400, .error "Invalid total format"⟩, st) := by
  simp [processReceipt, h]

theorem storeInv_execFrom (ops : List Op) :
    ∀ st ids, StoreInv st ids → StoreInv (execFrom st ids ops).1 (execFrom st ids ops).2 := by
  induction ops with
  | nil => intro st ids h; exact h
  | cons op ops ih =>
    intro st ids h
    cases op with
    | lookup id =>
      have e : (step st (.lookup id)).2 = st := by
        simp only [step, getPoints]; split <;> rfl
      simp only [execFrom, e]
      exact ih st ids h
    | process bound newId =>
      cases bound with
      | error msg =>
        simp only [execFrom, step, processReceipt]
        exact ih st ids h
      | ok r =>
        cases hv : isValidTotal r.total with
        | false =>
          simp only [execFrom, step, processReceipt_invalid st r newId hv]
          exact ih st ids h
        | true =>
          simp only [execFrom, step, processReceipt_ok st r newId hv]
          apply ih
          intro id
          by_cases hid : id = newId
          · subst hid
            simp [GoMap.get_set_same]
          · simp [GoMap.get_set_other _ _ _ _ hid, hid, (h id).1, (h id).2]

theorem storeInv_exec (ops : List Op) : StoreInv (exec ops).1 (exec ops).2 :=
  storeInv_execFrom ops Store.empty [] (fun id => by simp [Store.empty, GoMap.get])

/-! ## The format validators -/

theorem isDigit_iff_ascii (c : Char) : isDigit c = true ↔ IsAsciiDigit c := by
  rw [isDigit_iff]
  unfold IsAsciiDigit
  constructor
  · rintro ⟨h1, h2⟩
    have hc : c = Char.ofNat c.toNat := (Char.ofNat_toNat c).symm
    generalize c.toNat = n at hc h1 h2
    interval_cases n <;> (subst hc; decide)
  · intro h
    simp only [List.mem_cons, List.mem_singleton, List.not_mem_nil, or_false] at h
    rcases h with rfl | rfl | rfl | rfl | rfl | rfl | rfl | rfl | rfl | rfl <;> decide

theorem digitVal_eq (c : Char) : digitVal c = c.toNat - '0'.toNat := rfl

theorem isValidTotal_iff (t : String) : isValidTotal t = true ↔ TotalShape t := by
  unfold isValidTotal TotalShape
  rw [matchString_reTotal]
  simp only [isDigit_iff_ascii]

theorem isOddDay_iff (d : String) :
    isOddDay d = true ↔ ∃ d1 d2, DateShape d d1 d2 ∧ twoDigits d1 d2 % 2 = 1 := by
  unfold isOddDay DateShape
  by_cases hlen : d.toList.length = 10
  · obtain ⟨a, b, c, e, f, g, h, i, j, k, hs⟩ : ∃ a b c e f g h i j k,
        d.toList = [a, b, c, e, f, g, h, i, j, k] := by
      generalize d.toList = l at hlen
      rcases l with _ | ⟨a, _ | ⟨b, _ | ⟨c, _ | ⟨d, _ | ⟨e, _ | ⟨f, _ | ⟨g, _ | ⟨h, _ |
        ⟨i, _ | ⟨j, _ | ⟨k, l⟩⟩⟩⟩⟩⟩⟩⟩⟩⟩⟩ <;> simp at hlen
      exact ⟨_, _, _, _, _, _, _, _, _, _, rfl⟩
    rw [findSubmatch_reDate_shape d _ _ _ _ _ _ _ _ _ _ hs]
    by_cases hc : (isDigit a && isDigit b && isDigit c && isDigit e && f == '-' && isDigit g
        && isDigit h && i == '-' && isDigit j && isDigit k) = true
    · rw [if_pos hc]
      simp only [Bool.and_eq_true, beq_iff_eq] at hc
      obtain ⟨⟨⟨⟨⟨⟨⟨⟨⟨ha, hb⟩, hc⟩, he⟩, hf⟩, hg⟩, hh⟩, hi⟩, hj⟩, hk⟩ := hc
      subst hf hi
      have hv := atoi_two_digits hj hk
      simp only [List.length_cons, List.length_nil, List.getD_cons_succ, List.getD_cons_zero, hv]
      simp only [ne_eq, not_true, if_false, Nat.reduceAdd]
      constructor
      · intro hodd
        refine ⟨j, k, ⟨a, b, c, e, g, h, ?_⟩, ?_⟩
        · simp only [← isDigit_iff_ascii]
          exact ⟨ha, hb, hc, he, hg, hh, hj, hk, hs⟩
        · simp only [twoDigits, ← digitVal_eq]
          simp only [bne_iff_ne, ne_eq] at hodd
          have : ((digitVal j * 10 + digitVal k : Nat) : Int).tmod 2 =
              ((digitVal j * 10 + digitVal k) % 2 : Nat) := by
            rw [Int.tmod_eq_emod (by positivity) (by norm_num)]
            norm_cast
          rw [this] at hodd
          omega
      · rintro ⟨d1, d2, ⟨y1, y2, y3, y4, m1, m2, _, _, _, _, _, _, _, _, hs2⟩, hodd⟩
        rw [hs] at hs2
        simp only [List.cons.injEq, and_true] at hs2
        obtain ⟨-, -, -, -, -, -, -, -, rfl, rfl⟩ := hs2
        simp only [twoDigits, ← digitVal_eq] at hodd
        have : ((digitVal j * 10 + digitVal k : Nat) : Int).tmod 2 =
            ((digitVal j * 10 + digitVal k) % 2 : Nat) := by
          rw [Int.tmod_eq_emod (by positivity) (by norm_num)]
          norm_cast
        simp only [bne_iff_ne, ne_eq, this, hodd]
        norm_num
    · rw [if_neg hc]
      simp only [List.length_nil, ne_eq, OfNat.zero_ne_ofNat, not_false_eq_true, if_true,
        Bool.false_eq_true, false_iff]
      rintro ⟨d1, d2, ⟨y1, y2, y3, y4, m1, m2, h1, h2, h3, h4, h5, h6, h7, h8, hs2⟩, -⟩
      rw [hs] at hs2
      simp only [List.cons.injEq, and_true] at hs2
      obtain ⟨rfl, rfl, rfl, rfl, rfl, rfl, rfl, rfl, rfl, rfl⟩ := hs2
      apply hc
      simp only [← isDigit_iff_ascii] at h1 h2 h3 h4 h5 h6 h7 h8
      simp [h1, h2, h3, h4, h5, h6, h7, h8]
  · rw [findSubmatch_reDate_length d hlen]
    simp only [List.length_nil, ne_eq, OfNat.zero_ne_ofNat, not_false_eq_true, if_true,
      Bool.false_eq_true, false_iff]
    rintro ⟨d1, d2, ⟨y1, y2, y3, y4, m1, m2, -, -, -, -, -, -, -, -, hs2⟩, -⟩
    apply hlen
    rw [hs2]
    rfl

theorem isAfternoon_iff (t : String) :
    isAfternoon t = true ↔
      ∃ h1 h2 m1 m2, TimeShape t h1 h2 m1 m2 ∧ 14 ≤ twoDigits h1 h2 ∧ twoDigits h1 h2 < 16 := by
  unfold isAfternoon TimeShape
  by_cases hlen : t.toList.length = 5
  · obtain ⟨a, b, c, d, e, hs⟩ : ∃ a b c d e, t.toList = [a, b, c, d, e] := by
      generalize t.toList = l at hlen
      rcases l with _ | ⟨a, _ | ⟨b, _ | ⟨c, _ | ⟨d, _ | ⟨e, _ | ⟨f, l⟩⟩⟩⟩⟩⟩ <;> simp at hlen
      exact ⟨_, _, _, _, _, rfl⟩
    rw [findSubmatch_reTime_shape t _ _ _ _ _ hs]
    by_cases hc : (isDigit a && isDigit b && c == ':' && isDigit d && isDigit e) = true
    · rw [if_pos hc]
      simp only [Bool.and_eq_true, beq_iff_eq] at hc
      obtain ⟨⟨⟨⟨ha, hb⟩, hc⟩, hd⟩, he⟩ := hc
      subst hc
      have hv := atoi_two_digits ha hb
      simp only [List.length_cons, List.length_nil, List.getD_cons_succ, List.getD_cons_zero, hv]
      simp only [ne_eq, not_true, if_false, Nat.reduceAdd, Bool.and_eq_true, decide_eq_true_eq]
      constructor
      · rintro ⟨h14, h16⟩
        refine ⟨a, b, d, e, ?_, ?_, ?_⟩
        · simp only [← isDigit_iff_ascii]
          exact ⟨ha, hb, hd, he, hs⟩
        · simp only [twoDigits, ← digitVal_eq]; omega
        · simp only [twoDigits, ← digitVal_eq]; omega
      · rintro ⟨h1, h2, m1, m2, ⟨_, _, _, _, hs2⟩, h14, h16⟩
        rw [hs] at hs2
        simp only [List.cons.injEq, and_true] at hs2
        obtain ⟨rfl, rfl, -, rfl, rfl⟩ := hs2
        simp only [twoDigits, ← digitVal_eq] at h14 h16
        constructor <;> omega
    · rw [if_neg hc]
      simp only [List.length_nil, ne_eq, OfNat.zero_ne_ofNat, not_false_eq_true, if_true,
        Bool.false_eq_true, false_iff]
      rintro ⟨h1, h2, m1, m2, ⟨k1, k2, k3, k4, hs2⟩, -, -⟩
      rw [hs] at hs2
      simp only [List.cons.injEq, and_true] at hs2
      obtain ⟨rfl, rfl, rfl, rfl, rfl⟩ := hs2
      apply hc
      simp only [← isDigit_iff_ascii] at k1 k2 k3 k4
      simp [k1, k2, k3, k4]
  · rw [findSubmatch_reTime_length t hlen]
    simp only [List.length_nil, ne_eq, OfNat.zero_ne_ofNat, not_false_eq_true, if_true,
      Bool.false_eq_true, false_iff]
    rintro ⟨h1, h2, m1, m2, ⟨-, -, -, -, hs2⟩, -, -⟩
    apply hlen
    rw [hs2]
    rfl

/-! ## Facts about rounding -/

theorem log2Fuel_eq_log (fuel : Nat) : ∀ n, n ≤ fuel → log2Fuel fuel n = Nat.log 2 n := by
  induction fuel with
  | zero =>
    intro n hn
    have : n = 0 := by omega
    subst this
    simp [log2Fuel]
  | succ f ih =>
    intro n hn
    unfold log2Fuel
    by_cases h : n < 2
    · rw [if_pos h, Nat.log_of_lt h]
    · have h2 : 2 ≤ n := by omega
      rw [if_neg h, Nat.log_of_one_lt_of_le (by norm_num) h2, ih (n / 2) (by omega)]

theorem ilog2_eq_log (n : Nat) : ilog2 n = Nat.log 2 n :=
  log2Fuel_eq_log n n le_rfl

theorem pow_ilog2_le {n : Nat} (h : n ≠ 0) : 2 ^ ilog2 n ≤ n := by
  rw [ilog2_eq_log]; exact Nat.pow_log_le_self 2 h

theorem lt_pow_ilog2 (n : Nat) : n < 2 ^ (ilog2 n + 1) := by
  rw [ilog2_eq_log]; exact Nat.lt_pow_succ_log_self (by norm_num) n

theorem ilog2_lt_of_lt_pow {n k : Nat} (h : n < 2 ^ k) (hk : 0 < k) : ilog2 n < k := by
  rw [ilog2_eq_log]
  by_cases hn : n = 0
  · subst hn; simpa using hk
  · exact Nat.log_lt_of_lt_pow hn h

theorem ilog2_eq_of_bounds {n k : Nat} (h1 : 2 ^ k ≤ n) (h2 : n < 2 ^ (k + 1)) : ilog2 n = k := by
  rw [ilog2_eq_log]
  have hn : n ≠ 0 := by
    have : 0 < 2 ^ k := by positivity
    omega
  have hk : k ≠ 0 ∨ 1 < 2 ∧ n ≠ 0 := Or.inr ⟨by norm_num, hn⟩
  exact (Nat.log_eq_iff hk).2 ⟨h1, h2⟩

theorem rne_of_lt_half {a b m : Nat} (h1 : b * m ≤ a) (h2 : 2 * (a - b * m) < b) :
    rne a b = m := by
  have hb : 0 < b := by omega
  have hlt : a - b * m < b := by omega
  have hdiv : a / b = m := by
    have : a = b * m + (a - b * m) := by omega
    rw [this, Nat.mul_add_div hb, Nat.div_eq_of_lt hlt, add_zero]
  have hmod : a % b = a - b * m := by
    have := Nat.div_add_mod a b
    rw [hdiv] at this
    omega
  unfold rne
  rw [hmod, if_pos h2, hdiv]

theorem rne_bounds (a b : Nat) (hb : 0 < b) :
    2 * (rne a b * b) ≤ 2 * a + b ∧ 2 * a ≤ 2 * (rne a b * b) + b := by
  have hdm := Nat.div_add_mod a b
  have hlt := Nat.mod_lt a hb
  have hcomm : a / b * b = b * (a / b) := Nat.mul_comm _ _
  unfold rne
  split_ifs with h1 h2
  · rw [hcomm]; omega
  · rw [Nat.add_mul, hcomm]; omega
  · rcases Nat.mod_two_eq_zero_or_one (a / b) with h | h
    · rw [h, add_zero, hcomm]; omega
    · rw [h, Nat.add_mul, hcomm]; omega

/-- A value that a 53-bit significand holds is not changed by rounding. -/
theorem roundUnits_exact (j c q : Nat) (hj : j < 2 ^ 53) (hq : 0 < q) :
    roundUnits (j * 2 ^ c * q) q = j * 2 ^ c := by
  unfold roundUnits
  rw [Nat.mul_div_cancel _ hq]
  set s := ilog2 (j * 2 ^ c) - 52 with hs
  have hsc : s ≤ c := by
    have hlt : j * 2 ^ c < 2 ^ (53 + c) := by
      rw [pow_add]; exact Nat.mul_lt_mul_of_pos_right hj (by positivity)
    have := ilog2_lt_of_lt_pow hlt (by omega)
    omega
  have hc : 2 ^ c = 2 ^ (c - s) * 2 ^ s := by
    rw [← pow_add]; congr 1; omega
  have hm : rne (j * 2 ^ c * q) (q * 2 ^ s) = j * 2 ^ (c - s) := by
    apply rne_of_lt_half
    · rw [hc]; apply le_of_eq; ring
    · have : j * 2 ^ c * q - q * 2 ^ s * (j * 2 ^ (c - s)) = 0 := by
        rw [hc]; apply Nat.sub_eq_zero_of_le; apply le_of_eq; ring
      rw [this]; positivity
  rw [hm, hc]; ring

/-- In the range of the normal numbers, rounding moves a value by at most one part in
`2^53`. -/
theorem roundUnits_near (p q : Nat) (hq : 0 < q) (h : 2 ^ 52 ≤ p / q) :
    2 ^ 53 * (roundUnits p q * q) ≤ (2 ^ 53 + 1) * p ∧
      (2 ^ 53 - 1) * p ≤ 2 ^ 53 * (roundUnits p q * q) := by
  unfold roundUnits
  set s := ilog2 (p / q) - 52 with hs
  have hne : p / q ≠ 0 := by
    have : 0 < 2 ^ 52 := by positivity
    omega
  have hL : 52 ≤ ilog2 (p / q) := by
    by_contra hcon
    have h1 := lt_pow_ilog2 (p / q)
    have h2 : 2 ^ (ilog2 (p / q) + 1) ≤ 2 ^ 52 := Nat.pow_le_pow_right (by norm_num) (by omega)
    omega
  have hpow : 2 ^ s * 2 ^ 52 ≤ p / q := by
    rw [← pow_add]
    have : s + 52 = ilog2 (p / q) := by omega
    rw [this]; exact pow_ilog2_le hne
  have hb : q * 2 ^ s * 2 ^ 52 ≤ p := by
    have h1 : q * (p / q) ≤ p := Nat.mul_div_le p q
    have h2 : q * (2 ^ s * 2 ^ 52) ≤ q * (p / q) := Nat.mul_le_mul_left q hpow
    calc q * 2 ^ s * 2 ^ 52 = q * (2 ^ s * 2 ^ 52) := by ring
      _ ≤ p := h2.trans h1
  have hbpos : 0 < q * 2 ^ s := by positivity
  obtain ⟨r1, r2⟩ := rne_bounds p (q * 2 ^ s) hbpos
  have e : rne p (q * 2 ^ s) * 2 ^ s * q = rne p (q * 2 ^ s) * (q * 2 ^ s) := by ring
  rw [e]
  generalize rne p (q * 2 ^ s) * (q * 2 ^ s) = R at r1 r2
  generalize q * 2 ^ s = b at hb r1 r2
  constructor
  · omega
  · omega

/-! ## Claims about the store and the validators -/

/-- C2. Round trip: on any store, a receipt whose total is valid is inserted
successfully, the response carries an identifier, and looking that identifier up in the
resulting store returns exactly `calculatePoints` of the receipt. -/
theorem roundtrip_insert_getPoints (st : Store) (r : Receipt) (newId : String)
    (h : isValidTotal r.total = true) :
    ∃ id, (processReceipt st (.ok r) newId).1 = ⟨200, .id id⟩ ∧
      (getPoints (processReceipt st (.ok r) newId).2 id).1
        = ⟨200, .points (calculatePoints r)⟩ := by
  refine ⟨newId, ?_, ?_⟩
  · rw [processReceipt_ok st r newId h]
  · rw [processReceipt_ok st r newId h]
    simp [getPoints, GoMap.get_set_same]

/-- Witness of C2: the worked example inserted into the empty store. -/
theorem roundtrip_insert_getPoints_witness :
    ∃ id, (processReceipt Store.empty (.ok fixtureReceipt) "7fb1377b-b223").1 = ⟨200, .id id⟩ ∧
      (getPoints (processReceipt Store.empty (.ok fixtureReceipt) "7fb1377b-b223").2 id).1
        = ⟨200, .points (calculatePoints fixtureReceipt)⟩ :=
  roundtrip_insert_getPoints Store.empty fixtureReceipt "7fb1377b-b223" (by decide)

/-- C3. A receipt whose total is not valid is answered with a validation failure (status
400 and an error body, so no identifier), and the store, that is both maps, is left
exactly as it was; the same holds when the framework rejects the payload. -/
theorem invalid_total_rejected (st : Store) (r : Receipt) (newId : String)
    (h : isValidTotal r.total = false) :
    processReceipt st (.ok r) newId = (⟨400, .error "Invalid total format"⟩, st) ∧
      (processReceipt st (.ok r) newId).2.receipts = st.receipts ∧
      (processReceipt st (.ok r) newId).2.points = st.points ∧
      (∀ id, (processReceipt st (.ok r) newId).1.body ≠ .id id) ∧
      (∀ msg, processReceipt st (.error msg) newId = (⟨400, .error msg⟩, st)) := by
  rw [processReceipt_invalid st r newId h]
  refine ⟨rfl, rfl, rfl, ?_, ?_⟩
  · intro id hid; cases hid
  · intro msg; rfl

/-- Witness of C3: the worked example with the total `35.3`. -/
theorem invalid_total_rejected_witness :
    processReceipt Store.empty (.ok { fixtureReceipt with total := "35.3" }) "7fb1377b-b223"
      = (⟨400, .error "Invalid total format"⟩, Store.empty) :=
  (invalid_total_rejected Store.empty { fixtureReceipt with total := "35.3" } "7fb1377b-b223"
    (by decide)).1

/-- C4. In every store reached from the empty one by a sequence of requests, a lookup
answers not-found (status 404) exactly for the identifiers that no successful insert has
returned, and for an identifier that one has returned it answers with the score stored
under it. -/
theorem getPoints_notFound_iff (ops : List Op) (id : String) :
    ((getPoints (exec ops).1 id).1 = ⟨404, .error "Receipt not found"⟩ ↔ id ∉ (exec ops).2) ∧
      (id ∈ (exec ops).2 →
        ∃ p, (exec ops).1.points.get id = some p ∧
          (getPoints (exec ops).1 id).1 = ⟨200, .points p⟩) := by
  have hinv := storeInv_exec ops id
  constructor
  · unfold getPoints
    cases hr : (exec ops).1.receipts.get id with
    | none =>
      have : id ∉ (exec ops).2 := fun hmem => by
        have := hinv.1.2 hmem
        rw [hr] at this
        cases this
      simp [this]
    | some r =>
      have : id ∈ (exec ops).2 := hinv.1.1 (by rw [hr]; rfl)
      simp [this]
  · intro hmem
    have h1 := hinv.1.2 hmem
    have h2 := hinv.2.2 hmem
    obtain ⟨r, hr⟩ := Option.isSome_iff_exists.1 h1
    obtain ⟨p, hp⟩ := Option.isSome_iff_exists.1 h2
    exact ⟨p, hp, by simp [getPoints, hr, hp]⟩

/-- C5. `isValidTotal` accepts exactly the texts made of one or more ASCII digits, one
point and exactly two ASCII digits, with nothing before or after; in particular it
accepts `35.35` and rejects the nine other sample texts. -/
theorem isValidTotal_spec :
    (∀ t : String, isValidTotal t = true ↔ TotalShape t) ∧
      isValidTotal "35.35" = true ∧ isValidTotal "35.3" = false ∧
      isValidTotal "abc" = false ∧ isValidTotal "35" = false ∧ isValidTotal "" = false ∧
      isValidTotal ".35" = false ∧ isValidTotal "35.350" = false ∧
      isValidTotal "-1.00" = false ∧ isValidTotal "1,000.00" = false ∧
      isValidTotal "35.35\n" = false := by
  refine ⟨isValidTotal_iff, ?_, ?_, ?_, ?_, ?_, ?_, ?_, ?_, ?_, ?_⟩ <;> decide

/-- C6. `isOddDay` is true exactly for the texts made of four digits, a hyphen, two
digits, a hyphen and two digits whose last two digits, read as a number, are odd; it is
a total function, so every other text gives `false`, and no calendar validity is asked
for (`2022-13-99` is an odd day). -/
theorem isOddDay_spec :
    (∀ d : String, isOddDay d = true ↔ ∃ d1 d2, DateShape d d1 d2 ∧ twoDigits d1 d2 % 2 = 1) ∧
      (∀ d : String, (¬ ∃ d1 d2, DateShape d d1 d2) → isOddDay d = false) ∧
      isOddDay "2022-13-99" = true ∧ isOddDay "2022-01-02" = false ∧
      isOddDay "2022-1-01" = false ∧ isOddDay "" = false := by
  refine ⟨isOddDay_iff, ?_, ?_, ?_, ?_, ?_⟩
  · intro d hd
    cases h : isOddDay d with
    | false => rfl
    | true =>
      obtain ⟨d1, d2, hs, -⟩ := (isOddDay_iff d).1 h
      exact absurd ⟨d1, d2, hs⟩ hd
  all_goals decide

/-- C7. `isAfternoon` is true exactly for the texts made of two digits, a colon and two
digits whose first two digits, read as a number `h`, satisfy `14 ≤ h < 16`; the minute
digits play no part, and every other text gives `false`. -/
theorem isAfternoon_spec :
    (∀ t : String, isAfternoon t = true ↔
      ∃ h1 h2 m1 m2, TimeShape t h1 h2 m1 m2 ∧ 14 ≤ twoDigits h1 h2 ∧ twoDigits h1 h2 < 16) ∧
      (∀ t u : String, ∀ h1 h2 m1 m2 n1 n2, TimeShape t h1 h2 m1 m2 → TimeShape u h1 h2 n1 n2 →
        isAfternoon t = isAfternoon u) ∧
      (∀ t : String, (¬ ∃ h1 h2 m1 m2, TimeShape t h1 h2 m1 m2) → isAfternoon t = false) ∧
      isAfternoon "14:00" = true ∧ isAfternoon "15:59" = true ∧
      isAfternoon "13:59" = false ∧ isAfternoon "16:00" = false := by
  refine ⟨isAfternoon_iff, ?_, ?_, ?_, ?_, ?_, ?_⟩
  · intro t u h1 h2 m1 m2 n1 n2 ht hu
    rw [Bool.eq_iff_iff, isAfternoon_iff, isAfternoon_iff]
    constructor
    · rintro ⟨a, b, c, d, hs, h14, h16⟩
      have e : [a, b, ':', c, d] = [h1, h2, ':', m1, m2] := hs.2.2.2.2.symm.trans ht.2.2.2.2
      simp only [List.cons.injEq, and_true, true_and] at e
      obtain ⟨rfl, rfl, -, -⟩ := e
      exact ⟨a, b, n1, n2, hu, h14, h16⟩
    · rintro ⟨a, b, c, d, hs, h14, h16⟩
      have e : [a, b, ':', c, d] = [h1, h2, ':', n1, n2] := hs.2.2.2.2.symm.trans hu.2.2.2.2
      simp only [List.cons.injEq, and_true, true_and] at e
      obtain ⟨rfl, rfl, -, -⟩ := e
      exact ⟨a, b, m1, m2, ht, h14, h16⟩
  · intro t ht
    cases h : isAfternoon t with
    | false => rfl
    | true =>
      obtain ⟨h1, h2, m1, m2, hs, -, -⟩ := (isAfternoon_iff t).1 h
      exact absurd ⟨h1, h2, m1, m2, hs⟩ ht
  all_goals decide

/-! ## Facts about `ParseFloat` on amounts with two decimals -/

theorem lower_of_isDigit {c : Char} (h : isDigit c = true) : lower c = c := by
  rw [isDigit_iff] at h
  unfold lower
  rw [if_neg]
  simp only [Char.reduceToNat]
  omega

theorem isDigit_ne {c d : Char} (h : isDigit c = true) (hd : isDigit d = false) : c ≠ d := by
  rintro rfl
  rw [h] at hd
  cases hd

theorem special_of_digit (c : Char) (rest : List Char) (h : isDigit c = true) :
    special (c :: rest) = none := by
  have h1 : c ≠ '+' := isDigit_ne h (by decide)
  have h2 : c ≠ '-' := isDigit_ne h (by decide)
  have h3 : c ≠ 'i' := isDigit_ne h (by decide)
  have h4 : c ≠ 'n' := isDigit_ne h (by decide)
  simp [special, h1, h2, lower_of_isDigit h, h3, h4]

theorem readMantissa_digits (ds : List Char) (hds : ∀ c ∈ ds, isDigit c = true) :
    ∀ (rest : List Char) (m : Mantissa),
      readMantissa 10 (ds ++ rest) m = readMantissa 10 rest
        { mant := ds.foldl (fun acc c => acc * 10 + digitVal c) m.mant,
          fracDigits := if m.sawdot then m.fracDigits + ds.length else m.fracDigits,
          sawdot := m.sawdot,
          sawdigits := m.sawdigits || !ds.isEmpty } := by
  induction ds with
  | nil => intro rest m; simp
  | cons c cs ih =>
    intro rest m
    have hc : isDigit c = true := hds c (List.mem_cons_self _ _)
    have h1 : c ≠ '_' := isDigit_ne hc (by decide)
    have h2 : c ≠ '.' := isDigit_ne hc (by decide)
    rw [List.cons_append, readMantissa]
    simp only [h1, h2, if_false, hc, if_true]
    rw [ih (fun x hx => hds x (List.mem_cons_of_mem _ hx))]
    congr 1
    cases m.sawdot <;> (simp; try omega)

theorem underscoreScan_amount (l : List Char) (hl : ∀ c ∈ l, isDigit c = true ∨ c = '.') :
    ∀ saw : Char, saw ≠ '_' → underscoreScan false l saw = true := by
  induction l with
  | nil => intro saw hs; simpa [underscoreScan] using hs
  | cons c cs ih =>
    intro saw hs
    have ih2 := ih (fun x hx => hl x (List.mem_cons_of_mem _ hx))
    rcases hl c (List.mem_cons_self _ _) with hc | rfl
    · rw [underscoreScan]
      simp only [hc, Bool.true_or, if_true]
      exact ih2 '0' (by decide)
    · rw [underscoreScan]
      have hd : isDigit '.' = false := by decide
      simp only [hd, Bool.false_and, Bool.or_self, Bool.false_eq_true, if_false]
      rw [if_neg (by decide), if_neg hs]
      exact ih2 '!' (by decide)

theorem lower_ne_of_amount {c x : Char} (hc : isDigit c = true ∨ c = '.')
    (hx : isDigit x = false) (hx2 : x ≠ '.') : lower c ≠ x := by
  rcases hc with hc | rfl
  · rw [lower_of_isDigit hc]; exact isDigit_ne hc hx
  · have : lower '.' = '.' := by decide
    rw [this]; exact fun e => hx2 e.symm

theorem scaled_two_decimals (n : Nat) :
    scaled false n 10 (0 - ((2 * 1 : Nat) : Int)) =
      if overflowUnits ≤ roundUnits (n * unit) 100 then .error .errRange
      else .ok (.fin false (roundUnits (n * unit) 100)) := by
  have h : ¬ (0 : Int) ≤ 0 - ((2 * 1 : Nat) : Int) := by norm_num
  have e : (10 : Nat) ^ (-(0 - ((2 * 1 : Nat) : Int))).toNat = 100 := by
    have : (-(0 - ((2 * 1 : Nat) : Int))).toNat = 2 := by decide
    rw [this]; norm_num
  unfold scaled F64.ofRat
  rw [if_neg h, e]
  split_ifs <;> rfl

/-- `ParseFloat` on digits, a point and two digits: the nearest `float64` to the amount,
or a range error. -/
theorem parseFloat_amount (t : String) (ds : List Char) (d1 d2 : Char) (hne : ds ≠ [])
    (hds : ∀ c ∈ ds, isDigit c = true) (h1 : isDigit d1 = true) (h2 : isDigit d2 = true)
    (ht : t.toList = ds ++ ['.', d1, d2]) :
    parseFloat t =
      if overflowUnits ≤ roundUnits (digitsVal (ds ++ [d1, d2]) * unit) 100 then
        .error .errRange
      else .ok (.fin false (roundUnits (digitsVal (ds ++ [d1, d2]) * unit) 100)) := by
  obtain ⟨c, cs, rfl⟩ := List.exists_cons_of_ne_nil hne
  have hc : isDigit c = true := hds c (List.mem_cons_self _ _)
  have hall : ∀ x ∈ c :: (cs ++ ['.', d1, d2]), isDigit x = true ∨ x = '.' := by
    intro x hx
    rw [← List.cons_append] at hx
    rcases List.mem_append.1 hx with hx | hx
    · exact Or.inl (hds x hx)
    · simp only [List.mem_cons, List.mem_singleton, List.not_mem_nil, or_false] at hx
      rcases hx with rfl | rfl | rfl
      · exact Or.inr rfl
      · exact Or.inl h1
      · exact Or.inl h2
  have hread : readMantissa 10 (c :: (cs ++ ['.', d1, d2])) ⟨0, 0, false, false⟩ =
      (⟨digitsVal (c :: cs ++ [d1, d2]), 2, true, true⟩, []) := by
    rw [← List.cons_append, readMantissa_digits (c :: cs) hds]
    rw [readMantissa]
    simp only [show ('.' : Char) ≠ '_' by decide, if_false, if_true, Bool.false_eq_true]
    have := readMantissa_digits [d1, d2] (by
      intro x hx
      simp only [List.mem_cons, List.mem_singleton, List.not_mem_nil, or_false] at hx
      rcases hx with rfl | rfl
      · exact h1
      · exact h2) [] ⟨List.foldl (fun acc c => acc * 10 + digitVal c) 0 (c :: cs), 0, true,
        false || !(c :: cs).isEmpty⟩
    simp only [List.append_nil] at this
    rw [this]
    simp [readMantissa, digitsVal, List.foldl_append]
  rw [List.cons_append] at ht
  generalize cs ++ ['.', d1, d2] = l at ht hall hread
  have hp : c ≠ '+' := isDigit_ne hc (by decide)
  have hm : c ≠ '-' := isDigit_ne hc (by decide)
  have hsign1 : ((c :: l).head? == some '-' || (c :: l).head? == some '+') = false := by
    simp [hm, hp]
  have hsign2 : ((c :: l).head? == some '+' || (c :: l).head? == some '-') = false := by
    simp [hm, hp]
  have hneg : ((c :: l).head? == some '-') = false := by simp [hm]
  have hplus : ((c :: l).head? == some '+') = false := by simp [hp]
  have hsecond : ∀ b rest, l = b :: rest →
      lower b ≠ 'x' ∧ lower b ≠ 'b' ∧ lower b ≠ 'o' := by
    intro b rest e
    have hb : isDigit b = true ∨ b = '.' := hall b (by rw [e]; simp)
    exact ⟨lower_ne_of_amount hb (by decide) (by decide),
      lower_ne_of_amount hb (by decide) (by decide),
      lower_ne_of_amount hb (by decide) (by decide)⟩
  have hpre : (match c :: l with
      | a :: b :: _ => a == '0' && (lower b == 'b' || lower b == 'o' || lower b == 'x')
      | _ => false) = false := by
    cases hl : l with
    | nil => rfl
    | cons b rest =>
      obtain ⟨hx, hb, ho⟩ := hsecond b rest hl
      simp [hx, hb, ho]
  have hus : underscoreOK (c :: l) = true := by
    unfold underscoreOK
    simp only [hsign1, Bool.false_eq_true, if_false, hpre, Bool.false_and]
    exact underscoreScan_amount _ hall '^' (by decide)
  have hhex : hasHexPrefix (c :: l) = false := by
    unfold hasHexPrefix
    cases hl : l with
    | nil => rfl
    | cons b rest =>
      obtain ⟨hx, -, -⟩ := hsecond b rest hl
      cases rest with
      | nil => rfl
      | cons e rest2 => simp [hx]
  unfold parseFloat
  rw [ht, special_of_digit c _ hc]
  simp only [parseNumber, hplus, hneg, Bool.false_eq_true, if_false, hhex, hread, hus,
    List.isEmpty_cons, Bool.not_true, Bool.or_self, Bool.not_false, readExponentPart]
  exact scaled_two_decimals _

/-! ## Facts about the arithmetic of the rules -/

theorem unit_pos : 0 < unit := by
  unfold unit
  exact pow_pos (by norm_num) _

theorem unit_split (a b : Nat) (h : a + b = 1074) : unit = 2 ^ a * 2 ^ b := by
  unfold unit
  rw [← pow_add, h]

theorem pow_le_unit (k : Nat) (hk : k ≤ 1074) : 2 ^ k ≤ unit := by
  rw [unit_split k (1074 - k) (by omega)]
  exact Nat.le_mul_of_pos_right _ (pow_pos (by norm_num) _)

theorem overflowUnits_eq : overflowUnits = 2 ^ 1024 * unit := by
  unfold overflowUnits unit
  rw [← pow_add]

theorem pow_mul_unit_lt (k : Nat) (hk : 64 < k) : 2 ^ 64 * unit < 2 ^ k * unit :=
  Nat.mul_lt_mul_of_pos_right (Nat.pow_lt_pow_right (by norm_num) hk) unit_pos

theorem pow_mul_unit_lt_overflow : 2 ^ 64 * unit < overflowUnits := by
  rw [overflowUnits_eq]
  exact pow_mul_unit_lt _ (by norm_num)

/-- The `float64` nearest to an amount of `n` cents lies within one part in `2^53` of it. -/
theorem amount_near (n : Nat) (hn : 0 < n) :
    2 ^ 53 * (roundUnits (n * unit) 100 * 100) ≤ (2 ^ 53 + 1) * (n * unit) ∧
      (2 ^ 53 - 1) * (n * unit) ≤ 2 ^ 53 * (roundUnits (n * unit) 100 * 100) := by
  apply roundUnits_near _ _ (by norm_num)
  rw [Nat.le_div_iff_mul_le (by norm_num)]
  have h1 : 2 ^ 60 ≤ unit := pow_le_unit 60 (by norm_num)
  have h2 : unit ≤ n * unit := Nat.le_mul_of_pos_left _ hn
  omega

/-- The `float64` nearest to an amount is finite when the amount is below `2^53` cents. -/
theorem amount_lt_overflow (n : Nat) (hn : n < 2 ^ 53) :
    ¬ overflowUnits ≤ roundUnits (n * unit) 100 := by
  rw [overflowUnits_eq]
  rcases Nat.eq_zero_or_pos n with h0 | hpos
  · subst h0
    have : roundUnits (0 * unit) 100 = 0 := by
      have := roundUnits_exact 0 0 100 (by norm_num) (by norm_num)
      simpa using this
    rw [this]
    exact Nat.not_le.2 (Nat.mul_pos (pow_pos (by norm_num) _) unit_pos)
  · obtain ⟨hA, -⟩ := amount_near n hpos
    have h1 : n * unit ≤ 2 ^ 53 * unit := Nat.mul_le_mul_right _ hn.le
    have h3 := pow_mul_unit_lt_overflow
    rw [overflowUnits_eq] at h3
    have hU := unit_pos
    generalize 2 ^ 1024 * unit = V at h3
    generalize roundUnits (n * unit) 100 = R at hA
    generalize n * unit = Y at hA h1
    generalize unit = U at h1 h3 hU
    omega

theorem roundUnits_exact_unit (j q : Nat) (hj : j < 2 ^ 53) (hq : 0 < q) :
    roundUnits (j * unit * q) q = j * unit := by
  unfold unit
  exact roundUnits_exact j 1074 q hj hq

theorem toInt_fin_nonneg (k : Nat) (h : k / unit < 2 ^ 63) :
    F64.toInt (.fin false k) = ((k / unit : Nat) : Int) := by
  unfold F64.toInt
  simp only [Bool.false_eq_true, if_false]
  generalize k / unit = j at h
  rw [if_neg]
  omega

theorem ofInt_natCast (j : Nat) (hj : j < 2 ^ 53) :
    F64.ofInt (j : Int) = .fin false (j * unit) := by
  unfold F64.ofInt
  have h1 : decide ((j : Int) < 0) = false := by
    rw [decide_eq_false_iff_not]; omega
  have h2 := roundUnits_exact_unit j 1 hj (by norm_num)
  rw [h1, Int.natAbs_ofNat]
  rw [Nat.mul_one] at h2
  rw [h2]

/-- Rule 2 on an amount of `n` cents below `2^53`: the test `val == float64(int(val))`
holds exactly when the cents are a whole number of hundreds. -/
theorem rule2_units (n : Nat) (hn : n < 2 ^ 53) :
    F64.eq (.fin false (roundUnits (n * unit) 100))
      (F64.ofInt (F64.toInt (.fin false (roundUnits (n * unit) 100))))
        = decide (n % 100 = 0) := by
  have hU := unit_pos
  by_cases h : n % 100 = 0
  · obtain ⟨D, rfl⟩ := Nat.dvd_of_mod_eq_zero h
    have hD : D < 2 ^ 53 := by omega
    have hR : roundUnits (100 * D * unit) 100 = D * unit := by
      have := roundUnits_exact_unit D 100 hD (by norm_num)
      rw [← this]
      congr 1
      ring
    rw [hR, toInt_fin_nonneg _ (by rw [Nat.mul_div_cancel _ hU]; omega),
      Nat.mul_div_cancel _ hU, ofInt_natCast D hD]
    simp [F64.eq, h]
  · have hpos : 0 < n := by omega
    obtain ⟨hA, hB⟩ := amount_near n hpos
    set R := roundUnits (n * unit) 100 with hRdef
    have hmod := Nat.div_add_mod R unit
    have hj : R / unit < 2 ^ 53 := by
      by_contra hcon
      have h1 : 2 ^ 53 * unit ≤ unit * (R / unit) := by
        rw [Nat.mul_comm unit]; exact Nat.mul_le_mul_right _ (by omega)
      have h2 : n * unit ≤ (2 ^ 53 - 1) * unit := Nat.mul_le_mul_right _ (by omega)
      generalize unit * (R / unit) = Q at hmod h1
      generalize n * unit = Y at hA hB h2
      generalize unit = U at h1 h2 hU
      omega
    have hne : R ≠ R / unit * unit := by
      intro heq
      apply h
      have e1 : R * 100 = (100 * (R / unit)) * unit := by
        rw [heq, Nat.mul_div_cancel _ hU]; ring
      rw [e1] at hA hB
      have hA2 : 2 ^ 53 * (100 * (R / unit)) ≤ (2 ^ 53 + 1) * n := by
        apply Nat.le_of_mul_le_mul_right _ hU
        calc 2 ^ 53 * (100 * (R / unit)) * unit = 2 ^ 53 * (100 * (R / unit) * unit) := by ring
          _ ≤ (2 ^ 53 + 1) * (n * unit) := hA
          _ = (2 ^ 53 + 1) * n * unit := by ring
      have hB2 : (2 ^ 53 - 1) * n ≤ 2 ^ 53 * (100 * (R / unit)) := by
        apply Nat.le_of_mul_le_mul_right _ hU
        calc (2 ^ 53 - 1) * n * unit = (2 ^ 53 - 1) * (n * unit) := by ring
          _ ≤ 2 ^ 53 * (100 * (R / unit) * unit) := hB
          _ = 2 ^ 53 * (100 * (R / unit)) * unit := by ring
      have h1 : 100 * (R / unit) ≤ n := by
        by_contra hc
        omega
      have h2 : n ≤ 100 * (R / unit) := by
        by_contra hc
        omega
      omega
    rw [toInt_fin_nonneg _ (by omega), ofInt_natCast _ hj]
    simp [F64.eq, h, hne]

/-- The product `val*100` is exactly `n` for an amount of `n` cents that is a multiple of
25 below `2^53`. -/
theorem mul100_exact (n : Nat) (hn : n < 2 ^ 53) (h : n % 25 = 0) :
    roundUnits (roundUnits (n * unit) 100 * (100 * unit)) unit = n * unit := by
  have hU := unit_pos
  obtain ⟨j, rfl⟩ := Nat.dvd_of_mod_eq_zero h
  have hj : j < 2 ^ 53 := by omega
  obtain ⟨W, ⟨c, hc⟩, hu⟩ : ∃ W, (∃ c, W = 2 ^ c) ∧ unit = W * 2 ^ 2 :=
    ⟨_, ⟨1072, rfl⟩, unit_split 1072 2 rfl⟩
  have h1 : roundUnits (25 * j * unit) 100 = j * W := by
    have := roundUnits_exact j c 100 hj (by norm_num)
    rw [← hc] at this
    rw [← this, hu]
    congr 1
    ring
  have h2 : j * W * (100 * unit) = 25 * j * unit * unit := by
    rw [hu]
    ring
  rw [h1, h2]
  exact roundUnits_exact_unit (25 * j) unit hn hU

/-- Rule 3 on an amount of `n` cents below `2^50`: the product `val*100` is exactly `n`
when `n` is a multiple of 25, and always lies less than one away from `n`. -/
theorem mul100_units (n : Nat) (hn : n < 2 ^ 50) :
    (n % 25 = 0 →
      roundUnits (roundUnits (n * unit) 100 * (100 * unit)) unit = n * unit) ∧
    (n * unit ≤ roundUnits (roundUnits (n * unit) 100 * (100 * unit)) unit + unit ∧
      roundUnits (roundUnits (n * unit) 100 * (100 * unit)) unit < n * unit + unit) := by
  have hU := unit_pos
  have hexact : n % 25 = 0 →
      roundUnits (roundUnits (n * unit) 100 * (100 * unit)) unit = n * unit :=
    mul100_exact n (lt_of_lt_of_le hn (by norm_num))
  refine ⟨hexact, ?_⟩
  rcases Nat.eq_zero_or_pos n with h0 | hpos
  · subst h0
    rw [hexact rfl]
    omega
  · obtain ⟨hA, hB⟩ := amount_near n hpos
    set R1 := roundUnits (n * unit) 100 with hR1
    have h60 : 2 ^ 110 ≤ unit := pow_le_unit 110 (by norm_num)
    have hnU : unit ≤ n * unit := Nat.le_mul_of_pos_left _ hpos
    have hnU2 : n * unit ≤ (2 ^ 50 - 1) * unit := Nat.mul_le_mul_right _ (by omega)
    have hre : R1 * (100 * unit) = R1 * 100 * unit := by ring
    have hbig : 2 ^ 52 ≤ R1 * (100 * unit) / unit := by
      rw [hre, Nat.mul_div_cancel _ hU]
      generalize R1 * 100 = X at hA hB
      generalize n * unit = Y at hA hB hnU hnU2
      generalize unit = U at h60 hnU hnU2
      omega
    obtain ⟨hC, hD⟩ := roundUnits_near (R1 * (100 * unit)) unit hU hbig
    set R2 := roundUnits (R1 * (100 * unit)) unit with hR2
    rw [hre] at hC hD
    have hC2 : 2 ^ 53 * R2 ≤ (2 ^ 53 + 1) * (R1 * 100) := by
      apply Nat.le_of_mul_le_mul_right _ hU
      calc 2 ^ 53 * R2 * unit = 2 ^ 53 * (R2 * unit) := by ring
        _ ≤ (2 ^ 53 + 1) * (R1 * 100 * unit) := hC
        _ = (2 ^ 53 + 1) * (R1 * 100) * unit := by ring
    have hD2 : (2 ^ 53 - 1) * (R1 * 100) ≤ 2 ^ 53 * R2 := by
      apply Nat.le_of_mul_le_mul_right _ hU
      calc (2 ^ 53 - 1) * (R1 * 100) * unit = (2 ^ 53 - 1) * (R1 * 100 * unit) := by ring
        _ ≤ 2 ^ 53 * (R2 * unit) := hD
        _ = 2 ^ 53 * R2 * unit := by ring
    generalize R1 * 100 = X at hA hB hC2 hD2
    generalize n * unit = Y at hA hB hnU hnU2
    generalize unit = U at h60 hnU hnU2 hU
    constructor
    · omega
    · omega

theorem roundUnits_of_lt_half (p q M s : Nat) (hs : ilog2 (p / q) - 52 = s)
    (h1 : q * 2 ^ s * M ≤ p) (h2 : 2 * (p - q * 2 ^ s * M) < q * 2 ^ s) :
    roundUnits p q = M * 2 ^ s := by
  unfold roundUnits
  rw [hs, rne_of_lt_half h1 h2]

/-- The constant `0.2` times a whole number `v` of fives: the product `5v * 0.2` rounds to
`v` exactly. Here `W` stands for `2^1020`. -/
theorem mul02_exact_aux (v W : Nat) (hu : unit = 2 ^ 54 * W)
    (hpw : ∀ k, 2 ^ (k + 1020) = 2 ^ k * W) (hv : v < 2 ^ 50) :
    roundUnits (5 * v * unit * (3602879701896397 * W)) unit = v * unit := by
  have hU := unit_pos
  have hWpos : 0 < W := by
    rcases Nat.eq_zero_or_pos W with h0 | h
    · rw [h0, Nat.mul_zero] at hu
      omega
    · exact h
  rcases Nat.eq_zero_or_pos v with h0 | hpos
  · subst h0
    have := roundUnits_exact_unit 0 unit (by norm_num) hU
    simpa using this
  · have hp : 5 * v * unit * (3602879701896397 * W) = (v * 2 ^ 54 + v) * W * unit := by
      rw [hu]; ring
    rw [hp]
    set L := ilog2 v with hL
    have hL1 : 2 ^ L ≤ v := pow_ilog2_le (by omega)
    have hL2 : v < 2 ^ (L + 1) := lt_pow_ilog2 v
    have hL50 : L < 50 := ilog2_lt_of_lt_pow hv (by norm_num)
    have hle : 2 ^ (L + 1) ≤ 2 ^ 50 := Nat.pow_le_pow_right (by norm_num) (by omega)
    have hlog : ilog2 ((v * 2 ^ 54 + v) * W * unit / unit) - 52 = (L + 2) + 1020 := by
      rw [Nat.mul_div_cancel _ hU]
      have : ilog2 ((v * 2 ^ 54 + v) * W) = (L + 54) + 1020 := by
        apply ilog2_eq_of_bounds
        · rw [hpw, pow_add 2 L 54]
          apply Nat.mul_le_mul_right
          generalize 2 ^ L = b at hL1
          omega
        · have e : L + 54 + 1020 + 1 = (L + 1 + 54) + 1020 := by omega
          rw [e, hpw, pow_add 2 (L + 1) 54]
          apply Nat.mul_lt_mul_of_pos_right _ hWpos
          generalize 2 ^ (L + 1) = a at hL2 hle
          omega
      rw [this]
      omega
    have hsplit : (2 : Nat) ^ 54 = 2 ^ (52 - L) * 2 ^ (L + 2) := by
      rw [← pow_add]
      congr 1
      omega
    have hM : v * unit = v * 2 ^ (52 - L) * 2 ^ ((L + 2) + 1020) := by
      rw [hpw, hu, hsplit]; ring
    rw [hM]
    apply roundUnits_of_lt_half _ _ _ _ hlog
    · calc unit * 2 ^ ((L + 2) + 1020) * (v * 2 ^ (52 - L))
          = (v * 2 ^ (52 - L) * 2 ^ ((L + 2) + 1020)) * unit := by ring
        _ = v * unit * unit := by rw [← hM]
        _ = v * 2 ^ 54 * W * unit := by rw [hu]; ring
        _ ≤ (v * 2 ^ 54 + v) * W * unit :=
            Nat.mul_le_mul_right _ (Nat.mul_le_mul_right _ (Nat.le_add_right _ _))
    · have e1 : unit * 2 ^ ((L + 2) + 1020) * (v * 2 ^ (52 - L)) = v * 2 ^ 54 * W * unit := by
        calc unit * 2 ^ ((L + 2) + 1020) * (v * 2 ^ (52 - L))
            = (v * 2 ^ (52 - L) * 2 ^ ((L + 2) + 1020)) * unit := by ring
          _ = v * unit * unit := by rw [← hM]
          _ = v * 2 ^ 54 * W * unit := by rw [hu]; ring
      have e2 : (v * 2 ^ 54 + v) * W * unit - v * 2 ^ 54 * W * unit = v * W * unit := by
        rw [Nat.add_mul, Nat.add_mul, Nat.add_sub_cancel_left]
      rw [e1, e2, hpw]
      have e3 : 2 * (v * W * unit) = (2 * v) * (W * unit) := by ring
      have e4 : unit * (2 ^ (L + 2) * W) = 2 ^ (L + 2) * (W * unit) := by ring
      rw [e3, e4]
      apply Nat.mul_lt_mul_of_pos_right _ (Nat.mul_pos hWpos hU)
      rw [pow_succ]
      omega


theorem mul02_exact (v : Nat) (hv : v < 2 ^ 50) :
    roundUnits (5 * v * unit * (3602879701896397 * 2 ^ 1020)) unit = v * unit :=
  mul02_exact_aux v _ (unit_split 54 1020 rfl) (fun k => pow_add 2 k 1020) hv

/-- Rule 5 on a price of `m` cents below `2^50`: `math.Ceil(val * 0.2)` is the least whole
number not below `m / 500`. -/
theorem mul02_ceil_units (m : Nat) (hm : m < 2 ^ 50) :
    (roundUnits (roundUnits (m * unit) 100 * (3602879701896397 * 2 ^ 1020)) unit
        + (unit - 1)) / unit = (m + 499) / 500 ∧
      roundUnits (roundUnits (m * unit) 100 * (3602879701896397 * 2 ^ 1020)) unit
        ≤ (m + 499) / 500 * unit := by
  have hU := unit_pos
  by_cases h : m % 500 = 0
  · obtain ⟨v, rfl⟩ := Nat.dvd_of_mod_eq_zero h
    have hv : v < 2 ^ 50 := by omega
    have h1 : roundUnits (500 * v * unit) 100 = 5 * v * unit := by
      have := roundUnits_exact_unit (5 * v) 100 (by omega) (by norm_num)
      rw [← this]
      congr 1
      ring
    have h2 : (500 * v + 499) / 500 = v := by omega
    rw [h1, mul02_exact v hv, h2]
    refine ⟨?_, le_rfl⟩
    have e : v * unit + (unit - 1) = (unit - 1) + unit * v := by
      rw [Nat.mul_comm, Nat.add_comm]
    rw [e, Nat.add_mul_div_left _ _ hU, Nat.div_eq_of_lt (by omega), Nat.zero_add]
  · have hpos : 0 < m := by omega
    obtain ⟨hA, hB⟩ := amount_near m hpos
    set R1 := roundUnits (m * unit) 100 with hR1
    obtain ⟨W, hu, hW⟩ : ∃ W, unit = 2 ^ 54 * W ∧ (2 : Nat) ^ 1020 = W :=
      ⟨_, unit_split 54 1020 rfl, rfl⟩
    rw [hW]
    have hWpos : 0 < W := by
      rcases Nat.eq_zero_or_pos W with h0 | h
      · rw [h0, Nat.mul_zero] at hu
        omega
      · exact h
    have h200 : 2 ^ 200 ≤ unit := pow_le_unit 200 (by norm_num)
    have hmU : unit ≤ m * unit := Nat.le_mul_of_pos_left _ hpos
    have hmU2 : m * unit ≤ (2 ^ 50 - 1) * unit := Nat.mul_le_mul_right _ (by omega)
    -- the quotient c and the bounds on m * unit
    set c := (m + 499) / 500 with hc
    have hc1 : 1 ≤ c := by omega
    have hlow : 500 * ((c - 1) * unit) + unit ≤ m * unit := by
      have : 500 * (c - 1) + 1 ≤ m := by omega
      calc 500 * ((c - 1) * unit) + unit = (500 * (c - 1) + 1) * unit := by ring
        _ ≤ m * unit := Nat.mul_le_mul_right _ this
    have hhigh : m * unit ≤ 500 * ((c - 1) * unit) + 499 * unit := by
      have : m ≤ 500 * (c - 1) + 499 := by omega
      calc m * unit ≤ (500 * (c - 1) + 499) * unit := Nat.mul_le_mul_right _ this
        _ = 500 * ((c - 1) * unit) + 499 * unit := by ring
    have hcU : c * unit = (c - 1) * unit + unit := by
      have : c = (c - 1) + 1 := by omega
      conv_lhs => rw [this]
      ring
    have hbig : 2 ^ 52 ≤ R1 * (3602879701896397 * W) / unit := by
      rw [Nat.le_div_iff_mul_le hU, hu]
      have : R1 * (3602879701896397 * W) = (R1 * 3602879701896397) * W := by ring
      rw [this, ← Nat.mul_assoc]
      apply Nat.mul_le_mul_right
      rw [hu] at hA hB hmU h200
      generalize m * unit = Y at hA hB hmU
      generalize 2 ^ 54 * W = U at hA hB hmU h200
      omega
    obtain ⟨hE, hF⟩ := roundUnits_near (R1 * (3602879701896397 * W)) unit hU hbig
    set R2 := roundUnits (R1 * (3602879701896397 * W)) unit with hR2
    have hE2 : 2 ^ 53 * (R2 * 2 ^ 54) ≤ (2 ^ 53 + 1) * (R1 * 3602879701896397) := by
      apply Nat.le_of_mul_le_mul_right _ hWpos
      calc 2 ^ 53 * (R2 * 2 ^ 54) * W = 2 ^ 53 * (R2 * (2 ^ 54 * W)) := by ring
        _ = 2 ^ 53 * (R2 * unit) := by rw [← hu]
        _ ≤ (2 ^ 53 + 1) * (R1 * (3602879701896397 * W)) := hE
        _ = (2 ^ 53 + 1) * (R1 * 3602879701896397) * W := by ring
    have hF2 : (2 ^ 53 - 1) * (R1 * 3602879701896397) ≤ 2 ^ 53 * (R2 * 2 ^ 54) := by
      apply Nat.le_of_mul_le_mul_right _ hWpos
      calc (2 ^ 53 - 1) * (R1 * 3602879701896397) * W
          = (2 ^ 53 - 1) * (R1 * (3602879701896397 * W)) := by ring
        _ ≤ 2 ^ 53 * (R2 * unit) := hF
        _ = 2 ^ 53 * (R2 * (2 ^ 54 * W)) := by rw [← hu]
        _ = 2 ^ 53 * (R2 * 2 ^ 54) * W := by ring
    have hres : (c - 1) * unit < R2 ∧ R2 ≤ (c - 1) * unit + unit := by
      generalize (c - 1) * unit = P at hlow hhigh
      generalize m * unit = Y at hA hB hmU hmU2 hlow hhigh
      generalize unit = U at hU h200 hmU hmU2 hlow hhigh
      constructor
      · omega
      · omega
    rw [hcU]
    refine ⟨?_, hres.2⟩
    apply Nat.le_antisymm
    · have : R2 + (unit - 1) < (c + 1) * unit := by
        have e : (c + 1) * unit = (c - 1) * unit + unit + unit := by rw [Nat.add_mul, hcU]; ring
        rw [e]
        omega
      exact Nat.le_of_lt_succ ((Nat.div_lt_iff_lt_mul hU).2 this)
    · rw [Nat.le_div_iff_mul_le hU, hcU]
      omega

/-- The whole-number form of the ceiling agrees with the ceiling of `price * 0.2` over the
rationals, for a price of `cents / 100`. -/
theorem ceilFifth_eq_ceil (cents : Nat) :
    ((ceilFifth cents : Nat) : Int) = ⌈((cents : ℚ) / 100) * (2 / 10)⌉ := by
  symm
  rw [Int.ceil_eq_iff]
  unfold ceilFifth
  have h1 := Nat.div_add_mod (cents + 499) 500
  have h2 := Nat.mod_lt (cents + 499) (show 0 < 500 by norm_num)
  generalize (cents + 499) / 500 = z at h1
  generalize (cents + 499) % 500 = w at h1 h2
  have hq : ((cents : ℚ) / 100) * (2 / 10) = (cents : ℚ) / 500 := by ring
  rw [hq]
  have hc : (cents : ℚ) + 499 = 500 * (z : ℚ) + (w : ℚ) := by
    exact_mod_cast h1.symm
  have hw0 : (0 : ℚ) ≤ (w : ℚ) := Nat.cast_nonneg _
  have hw1 : (w : ℚ) ≤ 499 := by
    have : w ≤ 499 := by omega
    exact_mod_cast this
  simp only [Int.cast_natCast]
  constructor
  · rw [lt_div_iff₀ (by norm_num)]
    linarith
  · rw [div_le_iff₀ (by norm_num)]
    linarith

/-! ## Facts about `calculatePoints` -/

theorem isAlnum_eq (c : Char) : isAlnum c = c.isAlphanum := by
  rw [Bool.eq_iff_iff]
  simp only [isAlnum, Char.isAlphanum, Char.isAlpha, Char.isUpper, Char.isLower, Char.isDigit,
    Char.reduceToNat, ge_iff_le, UInt32.le_def, BitVec.le_def, Bool.or_eq_true,
    Bool.and_eq_true, decide_eq_true_eq]
  simp only [Char.toNat, UInt32.toNat]
  have e1 : (65 : UInt32).toBitVec.toNat = 65 := rfl
  have e2 : (90 : UInt32).toBitVec.toNat = 90 := rfl
  have e3 : (97 : UInt32).toBitVec.toNat = 97 := rfl
  have e4 : (122 : UInt32).toBitVec.toNat = 122 := rfl
  have e5 : (48 : UInt32).toBitVec.toNat = 48 := rfl
  have e6 : (57 : UInt32).toBitVec.toNat = 57 := rfl
  rw [e1, e2, e3, e4, e5, e6]
  tauto

/-- Rule 1: the matches of `[a-zA-Z0-9]` are the letters and digits of the text. -/
theorem countAllFrom_cls (p : Char → Bool) (l : List Char) :
    ∀ fuel pos, l.length < fuel → (Regex.cls p).countAllFrom fuel pos l = l.countP p := by
  induction l with
  | nil =>
    intro fuel pos h
    cases fuel with
    | zero => simp at h
    | succ f => simp [Regex.countAllFrom, Regex.run]
  | cons c cs ih =>
    intro fuel pos h
    cases fuel with
    | zero => simp at h
    | succ f =>
      have hf : cs.length < f := by simpa using h
      by_cases hp : p c = true
      · simp [Regex.countAllFrom, Regex.run, hp, ih f (pos + 1) hf]
        omega
      · simp [Regex.countAllFrom, Regex.run, hp, ih f (pos + 1) hf]

theorem findAllCount_reAlnum (s : String) :
    reAlnum.findAllCount s = s.toList.countP Char.isAlphanum := by
  unfold Regex.findAllCount reAlnum
  rw [countAllFrom_cls isAlnum _ _ 0 (Nat.lt_succ_self _)]
  congr 1
  funext c
  exact isAlnum_eq c

theorem wrap64_of_range (x : Int) (h1 : -(2 : Int) ^ 63 ≤ x) (h2 : x < (2 : Int) ^ 63) :
    wrap64 x = x := by
  unfold wrap64
  rw [Int.emod_eq_of_lt (by omega) (by omega)]
  omega

theorem wrap64_add_wrap64 (a b : Int) : wrap64 (wrap64 a + b) = wrap64 (a + b) := by
  unfold wrap64
  congr 1
  have : (a + 2 ^ 63) % 2 ^ 64 - 2 ^ 63 + b + 2 ^ 63 = (a + 2 ^ 63) % 2 ^ 64 + b := by ring
  rw [this, Int.emod_add_emod]
  congr 1
  ring

/-- A conditional addition to a wrapped running total. -/
theorem wrap64_cond (s a : Int) (c : Bool) :
    (if c = true then wrap64 (wrap64 s + a) else wrap64 s) = wrap64 (s + if c = true then a else 0) := by
  cases c
  · simp
  · simp [wrap64_add_wrap64]

/-- The Rule 5 loop adds the earned points of every item to the running total. -/
theorem foldl_rule5 (items : List Item) :
    ∀ s : Int,
      items.foldl (fun pts item =>
          match rule5Item item with
          | some earned => wrap64 (pts + earned)
          | none => pts) (wrap64 s)
        = wrap64 (s + (items.map (fun item => (rule5Item item).getD 0)).sum) := by
  induction items with
  | nil => intro s; simp
  | cons it rest ih =>
    intro s
    rw [List.foldl_cons]
    cases h : rule5Item it with
    | none =>
      simp only [List.map_cons, List.sum_cons, h, Option.getD_none, zero_add]
      exact ih s
    | some e =>
      simp only [List.map_cons, List.sum_cons, h, Option.getD_some]
      rw [wrap64_add_wrap64, ih (s + e)]
      congr 1
      ring

/-- `calculatePoints` is the wrapped sum of what the seven rules add. -/
theorem calculatePoints_eq (r : Receipt) :
    calculatePoints r =
      wrap64 ((reAlnum.findAllCount r.retailer : Nat)
        + (if rule2Fires r.total = true then 50 else 0)
        + (if rule3Fires r.total = true then 25 else 0)
        + ((r.items.length / 2 : Nat) : Int) * 5
        + (r.items.map (fun item => (rule5Item item).getD 0)).sum
        + (if isOddDay r.purchaseDate = true then 6 else 0)
        + (if isAfternoon r.purchaseTime = true then 10 else 0)) := by
  unfold calculatePoints
  simp only [zero_add]
  rw [wrap64_cond, wrap64_cond, wrap64_add_wrap64, foldl_rule5, wrap64_cond, wrap64_cond]

/-! ## The rules on amounts with two decimals -/

theorem filter_point_digits (ds : List Char) (h : ∀ c ∈ ds, isDigit c = true) :
    ds.filter (fun c => c != '.') = ds := by
  rw [List.filter_eq_self]
  intro c hc
  have : c ≠ '.' := isDigit_ne (h c hc) (by decide)
  simpa using this

theorem decimalCents_shape (t : String) (ds : List Char) (d1 d2 : Char)
    (hds : ∀ c ∈ ds, isDigit c = true) (h1 : isDigit d1 = true) (h2 : isDigit d2 = true)
    (ht : t.toList = ds ++ ['.', d1, d2]) :
    decimalCents t = digitsVal (ds ++ [d1, d2]) := by
  unfold decimalCents
  have h12 : ∀ c ∈ [d1, d2], isDigit c = true := by
    intro c hc
    simp only [List.mem_cons, List.mem_singleton, List.not_mem_nil, or_false] at hc
    rcases hc with rfl | rfl
    · exact h1
    · exact h2
  have e : ds ++ ['.', d1, d2] = ds ++ ['.'] ++ [d1, d2] := by simp
  rw [ht, e, List.filter_append, List.filter_append, filter_point_digits ds hds,
    filter_point_digits [d1, d2] h12]
  simp

/-- What the program reads from an amount with two decimals, in terms of its cents. -/
theorem parseFloat_shape (t : String) (h : TotalShape t) (hb : decimalCents t < 2 ^ 53) :
    parseFloat t = .ok (.fin false (roundUnits (decimalCents t * unit) 100)) := by
  obtain ⟨ds, d1, d2, hne, hds, h1, h2, ht⟩ := h
  simp only [← isDigit_iff_ascii] at hds h1 h2
  have hc := decimalCents_shape t ds d1 d2 hds h1 h2 ht
  rw [parseFloat_amount t ds d1 d2 hne hds h1 h2 ht, ← hc, if_neg (amount_lt_overflow _ hb)]

/-- Rule 2 fires exactly for the amounts with zero cents, below `2^53` cents. -/
theorem rule2Fires_shape (t : String) (h : TotalShape t) (hb : decimalCents t < 2 ^ 53) :
    rule2Fires t = decide (decimalCents t % 100 = 0) := by
  unfold rule2Fires
  rw [parseFloat_shape t h hb]
  exact rule2_units _ hb

theorem mul_f100 (n : Nat) (hn : n < 2 ^ 50) :
    F64.mul (.fin false (roundUnits (n * unit) 100)) f100 =
      .fin false (roundUnits (roundUnits (n * unit) 100 * (100 * unit)) unit) := by
  obtain ⟨-, -, hlt⟩ := mul100_units n hn
  have hU := unit_pos
  have hno : ¬ overflowUnits ≤ roundUnits (roundUnits (n * unit) 100 * (100 * unit)) unit := by
    rw [overflowUnits_eq]
    have h1 : n * unit + unit ≤ 2 ^ 50 * unit := by
      have : (n + 1) * unit ≤ 2 ^ 50 * unit := Nat.mul_le_mul_right _ (by omega)
      rw [Nat.add_mul, Nat.one_mul] at this
      exact this
    have h2 := pow_mul_unit_lt_overflow
    omega
  simp only [F64.mul, f100, if_neg hno, bne_self_eq_false]

/-- Rule 3 below `2^50` cents: it fires for the multiples of 25 cents, and does not fire
for the amounts whose cents leave a remainder other than 0 or 1. -/
theorem rule3Fires_shape (t : String) (h : TotalShape t) (hb : decimalCents t < 2 ^ 50) :
    (decimalCents t % 25 = 0 → rule3Fires t = true) ∧
      (decimalCents t % 25 ≠ 0 → decimalCents t % 25 ≠ 1 → rule3Fires t = false) := by
  have hb53 : decimalCents t < 2 ^ 53 := lt_of_lt_of_le hb (by norm_num)
  have hU := unit_pos
  unfold rule3Fires
  rw [parseFloat_shape t h hb53]
  simp only [mul_f100 _ hb]
  obtain ⟨hex, hlo, hhi⟩ := mul100_units (decimalCents t) hb
  generalize decimalCents t = n at hb hex hlo hhi
  generalize roundUnits (roundUnits (n * unit) 100 * (100 * unit)) unit = Z at hex hlo hhi
  have hq1 : Z / unit ≤ n := by
    have : Z / unit < n + 1 := by
      rw [Nat.div_lt_iff_lt_mul hU, Nat.add_mul, Nat.one_mul]; exact hhi
    omega
  have hq2 : n ≤ Z / unit + 1 := by
    have : n - 1 ≤ Z / unit := by
      rw [Nat.le_div_iff_mul_le hU, Nat.sub_mul, Nat.one_mul]; omega
    omega
  rw [toInt_fin_nonneg _ (by omega)]
  constructor
  · intro h25
    have hZ := hex h25
    rw [hZ, Nat.mul_div_cancel _ hU]
    simp only [beq_iff_eq]
    rw [Int.tmod_eq_emod (by positivity) (by norm_num)]
    omega
  · intro h0 h1
    simp only [beq_eq_false_iff_ne, ne_eq]
    rw [Int.tmod_eq_emod (by positivity) (by norm_num)]
    omega

theorem mul_f02_ceil (m : Nat) (hm : m < 2 ^ 50) :
    F64.toInt (F64.ceil (F64.mul (.fin false (roundUnits (m * unit) 100)) f02))
      = ((ceilFifth m : Nat) : Int) := by
  obtain ⟨hceil, hle⟩ := mul02_ceil_units m hm
  have hU := unit_pos
  have hc : (m + 499) / 500 ≤ 2 ^ 50 := by omega
  have hcu : (m + 499) / 500 * unit ≤ 2 ^ 50 * unit := Nat.mul_le_mul_right _ hc
  have h64 : 2 ^ 50 * unit ≤ 2 ^ 64 * unit :=
    Nat.mul_le_mul_right _ (Nat.pow_le_pow_right (show 0 < 2 by norm_num) (show 50 ≤ 64 by norm_num))
  have hov := pow_mul_unit_lt_overflow
  have hno : ¬ overflowUnits ≤
      roundUnits (roundUnits (m * unit) 100 * (3602879701896397 * 2 ^ 1020)) unit := by
    omega
  simp only [F64.mul, f02, if_neg hno, bne_self_eq_false, F64.ceil, hceil]
  rw [toInt_fin_nonneg _ (by rw [Nat.mul_div_cancel _ hU]; omega), Nat.mul_div_cancel _ hU]
  rfl

/-- Rule 5 on an item whose price has two decimals and is below `2^50` cents: the
program adds the ceiling of a fifth of the price when the trimmed description has a
length divisible by 3, and nothing otherwise. -/
theorem rule5Item_shape (item : Item) (h : TotalShape item.price)
    (hb : decimalCents item.price < 2 ^ 50) :
    (rule5Item item).getD 0 = ((rule5Spec item : Nat) : Int) := by
  have hb53 : decimalCents item.price < 2 ^ 53 := lt_of_lt_of_le hb (by norm_num)
  unfold rule5Item rule5Spec
  by_cases hlen : byteLen (trimSpace item.shortDescription.toList) % 3 = 0
  · simp only [hlen, beq_self_eq_true, if_true]
    rw [parseFloat_shape _ h hb53]
    simp only [Option.getD_some]
    exact mul_f02_ceil _ hb
  · have hne : ¬ ((byteLen (trimSpace item.shortDescription.toList) % 3 == 0) = true) := by
      rw [beq_iff_eq]; exact hlen
    rw [if_neg hne, if_neg hlen]
    rfl

/-- Rule 3 fires for every multiple of 25 cents below `2^53` cents. -/
theorem rule3Fires_multiple (t : String) (h : TotalShape t) (hb : decimalCents t < 2 ^ 53)
    (h25 : decimalCents t % 25 = 0) : rule3Fires t = true := by
  have hU := unit_pos
  unfold rule3Fires
  rw [parseFloat_shape t h hb]
  have hZ := mul100_exact _ hb h25
  have h1 : decimalCents t * unit ≤ 2 ^ 53 * unit := Nat.mul_le_mul_right _ hb.le
  have h2 : 2 ^ 53 * unit ≤ 2 ^ 64 * unit :=
    Nat.mul_le_mul_right _
      (Nat.pow_le_pow_right (show 0 < 2 by norm_num) (show 53 ≤ 64 by norm_num))
  have hov := pow_mul_unit_lt_overflow
  have hno : ¬ overflowUnits ≤
      roundUnits (roundUnits (decimalCents t * unit) 100 * (100 * unit)) unit := by
    rw [hZ]; omega
  rw [hZ] at hno
  simp only [F64.mul, f100, hZ, if_neg hno, bne_self_eq_false]
  rw [toInt_fin_nonneg _ (by rw [Nat.mul_div_cancel _ hU]; omega), Nat.mul_div_cancel _ hU]
  simp only [beq_iff_eq]
  rw [Int.tmod_eq_emod (by positivity) (by norm_num)]
  omega

theorem rule5_sum_shape (items : List Item)
    (h : ∀ it ∈ items, isValidTotal it.price = true ∧ decimalCents it.price < 10 ^ 15) :
    (items.map (fun item => (rule5Item item).getD 0)).sum
      = (((items.map rule5Spec).sum : Nat) : Int) := by
  induction items with
  | nil => simp
  | cons it rest ih =>
    have hit := h it (List.mem_cons_self _ _)
    have hrest := ih (fun x hx => h x (List.mem_cons_of_mem _ hx))
    simp only [List.map_cons, List.sum_cons, Nat.cast_add, hrest]
    rw [rule5Item_shape it ((isValidTotal_iff _).1 hit.1)
      (lt_of_lt_of_le hit.2 (by norm_num))]

/-- The other rules as the program computes them agree with the specification when every
price has two decimals and is below `10^15` cents. -/
theorem otherRulesPoints_eq_spec (r : Receipt)
    (h : ∀ it ∈ r.items, isValidTotal it.price = true ∧ decimalCents it.price < 10 ^ 15) :
    otherRulesPoints r = ((otherRulesSpec r : Nat) : Int) := by
  unfold otherRulesPoints otherRulesSpec
  rw [rule5_sum_shape r.items h, findAllCount_reAlnum]
  push_cast
  ring_nf

theorem calculatePoints_eq_other (r : Receipt) :
    calculatePoints r =
      wrap64 (otherRulesPoints r + (if rule2Fires r.total = true then 50 else 0)
        + (if rule3Fires r.total = true then 25 else 0)) := by
  rw [calculatePoints_eq]
  unfold otherRulesPoints
  congr 1
  ring

/-! ## Claims about the point calculation -/

/-- C1, amended. For every receipt whose total is valid, below `10^15` cents and not one
cent above a multiple of 25 cents, whose item prices all have the form digits, point, two
digits and are below `10^15` cents, and whose seven rule contributions sum to less than
`2^63`, `calculatePoints` is exactly the sum of the seven rule contributions: the letters
and digits of the retailer, 50 for zero cents, 25 for cents divisible by 25, 5 for every
two items, the ceiling of a fifth of the price of each item whose trimmed description has
a length divisible by 3, 6 for an odd day and 10 for an afternoon time. -/
theorem calculatePoints_eq_specPoints (r : Receipt)
    (htotal : isValidTotal r.total = true)
    (hcents : decimalCents r.total < 10 ^ 15)
    (hslip : decimalCents r.total % 25 ≠ 1)
    (hitems : ∀ it ∈ r.items, isValidTotal it.price = true ∧ decimalCents it.price < 10 ^ 15)
    (hfit : specPoints r < 2 ^ 63) :
    calculatePoints r = ((specPoints r : Nat) : Int) := by
  have hshape := (isValidTotal_iff _).1 htotal
  have h50 : decimalCents r.total < 2 ^ 50 := lt_of_lt_of_le hcents (by norm_num)
  have h53 : decimalCents r.total < 2 ^ 53 := lt_of_lt_of_le hcents (by norm_num)
  have h2 := rule2Fires_shape r.total hshape h53
  obtain ⟨h3a, h3b⟩ := rule3Fires_shape r.total hshape h50
  have h3 : rule3Fires r.total = decide (decimalCents r.total % 25 = 0) := by
    by_cases h : decimalCents r.total % 25 = 0
    · rw [h3a h, decide_eq_true h]
    · rw [h3b h hslip, decide_eq_false h]
  rw [calculatePoints_eq_other, otherRulesPoints_eq_spec r hitems, h2, h3]
  have hval : ((otherRulesSpec r : Nat) : Int)
      + (if decide (decimalCents r.total % 100 = 0) = true then 50 else 0)
      + (if decide (decimalCents r.total % 25 = 0) = true then 25 else 0)
      = ((specPoints r : Nat) : Int) := by
    unfold specPoints
    simp only [decide_eq_true_eq]
    push_cast
    split_ifs <;> rfl
  rw [hval]
  apply wrap64_of_range <;> omega

/-- Witness of C1: the worked example of the specification. -/
theorem calculatePoints_eq_specPoints_witness :
    calculatePoints fixtureReceipt = ((specPoints fixtureReceipt : Nat) : Int) ∧
      specPoints fixtureReceipt = 28 :=
  ⟨calculatePoints_eq_specPoints fixtureReceipt (by decide) (by decide) (by decide)
    (by decide) (by decide), by decide⟩

/-- Counterexample to C1 as stated. The totals are valid and the prices have the required
form, yet `calculatePoints` differs from the sum of the seven contributions: for the
total `2.01` (26 instead of 1, Rule 3 fires), for the total `360287970189641.00` (51
instead of 76, Rule 3 does not fire) and for the price `10000000000000000.01`
(2000000000000001 instead of 2000000000000002). -/
theorem calculatePoints_ne_specPoints :
    (isValidTotal slipReceipt.total = true ∧
      (∀ it ∈ slipReceipt.items, isValidTotal it.price = true) ∧
      calculatePoints slipReceipt = 26 ∧ specPoints slipReceipt = 1) ∧
    (isValidTotal bigTotalReceipt.total = true ∧
      (∀ it ∈ bigTotalReceipt.items, isValidTotal it.price = true) ∧
      calculatePoints bigTotalReceipt = 51 ∧ specPoints bigTotalReceipt = 76) ∧
    (isValidTotal bigPriceReceipt.total = true ∧
      (∀ it ∈ bigPriceReceipt.items, isValidTotal it.price = true) ∧
      calculatePoints bigPriceReceipt = 2000000000000001 ∧
      specPoints bigPriceReceipt = 2000000000000002) := by
  refine ⟨⟨by decide, by decide, by decide!, by decide⟩,
    ⟨by decide, by decide, by decide!, by decide⟩,
    ⟨by decide, by decide, by decide!, by decide⟩⟩

/-- C8, amended. For every receipt accepted by the store whose item prices all have the
form digits, point, two digits and are below `10^15` cents, and whose rule contributions
cannot reach `2^63`, `calculatePoints` is non-negative. -/
theorem calculatePoints_nonneg (r : Receipt) (_hacc : Accepted r)
    (hitems : ∀ it ∈ r.items, isValidTotal it.price = true ∧ decimalCents it.price < 10 ^ 15)
    (hfit : otherRulesSpec r + 75 < 2 ^ 63) :
    0 ≤ calculatePoints r := by
  rw [calculatePoints_eq_other, otherRulesPoints_eq_spec r hitems]
  have h2 : (0 : Int) ≤ (if rule2Fires r.total = true then 50 else 0) ∧
      (if rule2Fires r.total = true then 50 else 0) ≤ (50 : Int) := by
    split_ifs <;> omega
  have h3 : (0 : Int) ≤ (if rule3Fires r.total = true then 25 else 0) ∧
      (if rule3Fires r.total = true then 25 else 0) ≤ (25 : Int) := by
    split_ifs <;> omega
  generalize (if rule2Fires r.total = true then (50 : Int) else 0) = a at h2
  generalize (if rule3Fires r.total = true then (25 : Int) else 0) = b at h3
  rw [wrap64_of_range _ (by omega) (by omega)]
  omega

/-- Witness of C8: the worked example of the specification. -/
theorem calculatePoints_nonneg_witness : 0 ≤ calculatePoints fixtureReceipt :=
  calculatePoints_nonneg fixtureReceipt (by unfold Accepted; decide) (by decide) (by decide)

/-- Counterexample to C8 as stated. Three receipts that the store accepts and whose score
is negative: one with the price `-100.00` (score -19), one with the price
`100000000000000000000.00`, whose points do not fit an `int`, and one with two prices of
`40000000000000000000.00`, whose points fit one by one and wrap around when added. -/
theorem calculatePoints_negative :
    (Accepted negativePriceReceipt ∧ calculatePoints negativePriceReceipt = -19) ∧
    (Accepted { negativePriceReceipt with items := [⟨"abc", "100000000000000000000.00"⟩] } ∧
      calculatePoints { negativePriceReceipt with
        items := [⟨"abc", "100000000000000000000.00"⟩] } < 0) ∧
    (Accepted wrapReceipt ∧ calculatePoints wrapReceipt < 0) := by
  refine ⟨⟨?_, by decide!⟩, ⟨?_, by decide!⟩, ⟨?_, by decide!⟩⟩ <;>
    (unfold Accepted; decide)

/-- C9, the code at the failing input. The total `2.01` is valid and its 201 cents are not
divisible by 25, yet Rule 3 fires for it and the score of the small receipt is 26 instead
of 1; for `10.25` the rule fires and for `35.35` it does not, as claimed. -/
theorem rule3_fires_for_2_01 :
    isValidTotal "2.01" = true ∧ decimalCents "2.01" % 25 ≠ 0 ∧ rule3Fires "2.01" = true ∧
      calculatePoints slipReceipt = 26 ∧
      rule3Fires "10.25" = true ∧ rule3Fires "35.35" = false := by
  refine ⟨by decide, by decide, by decide!, by decide!, by decide!, by decide!⟩

/-- C10, amended. For every receipt whose total is valid, has the fractional digits `00`
and is below `2^53` cents, Rule 2 and Rule 3 both fire, so that the total adds 75 points
to what the other rules add. -/
theorem whole_dollar_total_adds_75 (r : Receipt) (hvalid : isValidTotal r.total = true)
    (h00 : ∃ ds, r.total.toList = ds ++ ['.', '0', '0'])
    (hb : decimalCents r.total < 2 ^ 53) :
    rule2Fires r.total = true ∧ rule3Fires r.total = true ∧
      calculatePoints r = wrap64 (otherRulesPoints r + 75) := by
  have hshape := (isValidTotal_iff _).1 hvalid
  have h100 : decimalCents r.total % 100 = 0 := by
    obtain ⟨ds, hds⟩ := h00
    obtain ⟨es, d1, d2, -, hes, -, -, ht⟩ := hshape
    have e : ds ++ ['.', '0', '0'] = es ++ ['.', d1, d2] := hds.symm.trans ht
    have e1 : ds ++ ['.'] ++ ['0', '0'] = es ++ ['.'] ++ [d1, d2] := by simpa using e
    have hl : (ds ++ ['.']).length = (es ++ ['.']).length := by
      have := congrArg List.length e
      simp only [List.length_append, List.length_cons, List.length_nil] at this ⊢
      omega
    obtain ⟨e2, e3⟩ := List.append_inj e1 hl
    have e4 : ds = es := by simpa using e2
    simp only [List.cons.injEq, and_true] at e3
    obtain ⟨rfl, rfl⟩ := e3
    subst e4
    simp only [← isDigit_iff_ascii] at hes
    rw [decimalCents_shape r.total ds '0' '0' hes (by decide) (by decide) ht]
    simp only [digitsVal, List.foldl_append, List.foldl_cons, List.foldl_nil, digitVal,
      Char.reduceToNat, Nat.sub_self, Nat.add_zero]
    rw [Nat.mul_assoc]
    exact Nat.mul_mod_left _ _
  have h2 : rule2Fires r.total = true := by
    rw [rule2Fires_shape r.total hshape hb, decide_eq_true h100]
  have h3 : rule3Fires r.total = true :=
    rule3Fires_multiple r.total hshape hb (by omega)
  refine ⟨h2, h3, ?_⟩
  rw [calculatePoints_eq_other, h2, h3]
  congr 1
  simp only [if_true]
  ring

/-- Witness of C10: the small receipt with the total `10.00`. -/
theorem whole_dollar_total_adds_75_witness :
    rule2Fires "10.00" = true ∧ rule3Fires "10.00" = true ∧
      calculatePoints { slipReceipt with total := "10.00" }
        = wrap64 (otherRulesPoints { slipReceipt with total := "10.00" } + 75) :=
  whole_dollar_total_adds_75 { slipReceipt with total := "10.00" } (by decide)
    ⟨['1', '0'], by decide⟩ (by decide)

/-- Counterexample to C10 as stated. The total `360287970189641.00` is valid and has the
fractional digits `00`; Rule 2 fires for it and Rule 3 does not, so the total adds 50
points, not 75. -/
theorem whole_dollar_total_adds_50 :
    isValidTotal "360287970189641.00" = true ∧
      (∃ ds, "360287970189641.00".toList = ds ++ ['.', '0', '0']) ∧
      rule2Fires "360287970189641.00" = true ∧ rule3Fires "360287970189641.00" = false ∧
      calculatePoints bigTotalReceipt = otherRulesPoints bigTotalReceipt + 50 := by
  refine ⟨by decide, ⟨"360287970189641".toList, by decide⟩, by decide!, by decide!, by decide!⟩

/-! ## Claims about Rule 5 -/

theorem rule5Item_of_length (item : Item)
    (hlen : byteLen (trimSpace item.shortDescription.toList) % 3 = 0) :
    rule5Item item =
      match parseFloat item.price with
      | .ok val => some (F64.toInt (F64.ceil (F64.mul val f02)))
      | .error _ => none := by
  unfold rule5Item
  rw [if_pos (by rw [beq_iff_eq]; exact hlen)]

theorem rule5Item_exact (item : Item)
    (hlen : byteLen (trimSpace item.shortDescription.toList) % 3 = 0)
    (hprice : isValidTotal item.price = true) (hb : decimalCents item.price < 10 ^ 15) :
    rule5Item item = some ((ceilFifth (decimalCents item.price) : Nat) : Int) := by
  have h53 : decimalCents item.price < 2 ^ 53 := lt_of_lt_of_le hb (by norm_num)
  have h50 : decimalCents item.price < 2 ^ 50 := lt_of_lt_of_le hb (by norm_num)
  rw [rule5Item_of_length item hlen, parseFloat_shape _ ((isValidTotal_iff _).1 hprice) h53]
  simp only [mul_f02_ceil _ h50]

/-- C11, amended. For every item whose trimmed description has a length divisible by 3 and
whose price has the form digits, point, two digits and is below `10^15` cents, the points
that Rule 5 adds are exactly the mathematical ceiling of `price * 0.2`, which is `price / 5`
when the price is a whole multiple of 5.00. -/
theorem rule5_adds_ceiling (item : Item)
    (hlen : byteLen (trimSpace item.shortDescription.toList) % 3 = 0)
    (hprice : isValidTotal item.price = true) (hb : decimalCents item.price < 10 ^ 15) :
    rule5Item item = some ⌈((decimalCents item.price : ℚ) / 100) * (2 / 10)⌉ ∧
      (decimalCents item.price % 500 = 0 →
        rule5Item item = some ((decimalCents item.price / 500 : Nat) : Int)) := by
  have h := rule5Item_exact item hlen hprice hb
  refine ⟨?_, ?_⟩
  · rw [h, ceilFifth_eq_ceil]
  · intro h500
    rw [h]
    unfold ceilFifth
    congr 2
    omega

/-- Witness of C11: the four sample prices give 3, 3, 2 and 1 points, where the floor
would give 2, 2, 2 and 0. -/
theorem rule5_adds_ceiling_witness :
    rule5Item ⟨"abc", "12.25"⟩ = some ⌈((decimalCents "12.25" : ℚ) / 100) * (2 / 10)⌉ ∧
      rule5Item ⟨"abc", "12.25"⟩ = some 3 ∧ rule5Item ⟨"abc", "12.00"⟩ = some 3 ∧
      rule5Item ⟨"abc", "10.00"⟩ = some 2 ∧ rule5Item ⟨"abc", "0.01"⟩ = some 1 :=
  ⟨(rule5_adds_ceiling ⟨"abc", "12.25"⟩ (by decide) (by decide) (by decide)).1,
    by decide!, by decide!, by decide!, by decide!⟩

/-- Counterexample to C11 as stated. The description `abc` has a length divisible by 3 and
the price `10000000000000000.01` is a non-negative decimal with two fractional digits; the
ceiling of a fifth of it is 2000000000000001, and Rule 5 adds 2000000000000000. -/
theorem rule5_below_ceiling :
    byteLen (trimSpace bigPriceItem.shortDescription.toList) % 3 = 0 ∧
      isValidTotal bigPriceItem.price = true ∧
      ⌈((decimalCents bigPriceItem.price : ℚ) / 100) * (2 / 10)⌉ = 2000000000000001 ∧
      rule5Item bigPriceItem = some 2000000000000000 := by
  refine ⟨by decide, by decide, ?_, by decide!⟩
  rw [← ceilFifth_eq_ceil]
  decide

theorem sum_rule5_replace (pre post : List Item) (it it2 : Item)
    (h : (rule5Item it).getD 0 = (rule5Item it2).getD 0) :
    ((pre ++ it :: post).map (fun item => (rule5Item item).getD 0)).sum
      = ((pre ++ it2 :: post).map (fun item => (rule5Item item).getD 0)).sum := by
  simp only [List.map_append, List.map_cons, List.sum_append, List.sum_cons, h]

theorem rule5Item_zero_price (desc : String) : (rule5Item ⟨desc, "0.00"⟩).getD 0 = 0 := by
  have hv : isValidTotal "0.00" = true := by decide
  have hc : decimalCents "0.00" = 0 := by decide
  have h := rule5Item_shape ⟨desc, "0.00"⟩ ((isValidTotal_iff _).1 hv)
    (by rw [hc]; norm_num)
  rw [h]
  unfold rule5Spec
  simp only [hc]
  split_ifs <;> rfl

/-- C12. Fail-soft price parsing: when the price of an item of a receipt does not parse
(`ParseFloat` returns an error), `calculatePoints`, a total function, gives the score of the
same receipt with that price replaced by `0.00`: the item adds nothing under Rule 5 and no
other rule or item is affected. -/
theorem unparseable_price_adds_nothing (r : Receipt) (pre post : List Item) (it : Item)
    (hitems : r.items = pre ++ it :: post)
    (herr : ∃ e, parseFloat it.price = .error e) :
    rule5Item it = none ∧
      calculatePoints r
        = calculatePoints { r with items := pre ++ { it with price := "0.00" } :: post } := by
  obtain ⟨e, he⟩ := herr
  have hnone : rule5Item it = none := by
    unfold rule5Item
    rw [he]
    split_ifs <;> rfl
  refine ⟨hnone, ?_⟩
  rw [calculatePoints_eq, calculatePoints_eq]
  have hsum := sum_rule5_replace pre post it { it with price := "0.00" }
    (by rw [hnone, rule5Item_zero_price]; rfl)
  simp only [hitems, hsum, List.length_append, List.length_cons]

/-- Witness of C12: the small receipt with the price `abc` scores what it scores with the
price `0.00`. -/
theorem unparseable_price_adds_nothing_witness :
    rule5Item ⟨"abc", "abc"⟩ = none ∧
      calculatePoints { slipReceipt with items := [⟨"abc", "abc"⟩] }
        = calculatePoints { slipReceipt with items := [⟨"abc", "0.00"⟩] } :=
  unparseable_price_adds_nothing { slipReceipt with items := [⟨"abc", "abc"⟩] } [] []
    ⟨"abc", "abc"⟩ rfl ⟨.errSyntax, rfl⟩

theorem trimSpace_of_all_space (l : List Char) (h : ∀ c ∈ l, isSpace c = true) :
    trimSpace l = [] := by
  unfold trimSpace
  have : l.dropWhile isSpace = [] := List.dropWhile_eq_nil_iff.2 h
  rw [this]
  rfl

/-- C20, amended. For every item whose description consists of whitespace only, the
trimmed description is empty, its length 0 is divisible by 3, and Rule 5 fires: whenever
the price parses, the item adds what the branch of Rule 5 computes, and for a price of the
form digits, point, two digits below `10^15` cents that is exactly the mathematical ceiling
of `price * 0.2`. -/
theorem whitespace_description_fires_rule5 (item : Item)
    (hws : ∀ c ∈ item.shortDescription.toList, isSpace c = true) :
    trimSpace item.shortDescription.toList = [] ∧
      byteLen (trimSpace item.shortDescription.toList) % 3 = 0 ∧
      (∀ val, parseFloat item.price = .ok val →
        rule5Item item = some (F64.toInt (F64.ceil (F64.mul val f02)))) ∧
      (isValidTotal item.price = true → decimalCents item.price < 10 ^ 15 →
        rule5Item item = some ⌈((decimalCents item.price : ℚ) / 100) * (2 / 10)⌉) := by
  have htrim := trimSpace_of_all_space _ hws
  have hlen : byteLen (trimSpace item.shortDescription.toList) % 3 = 0 := by
    rw [htrim]; rfl
  refine ⟨htrim, hlen, ?_, ?_⟩
  · intro val hval
    rw [rule5Item_of_length item hlen, hval]
  · intro hp hb
    rw [rule5Item_exact item hlen hp hb, ceilFifth_eq_ceil]

/-- Witness of C20: an item described by three spaces and priced `12.00` adds the ceiling
of a fifth of 12.00, which is 3 points. -/
theorem whitespace_description_fires_rule5_witness :
    trimSpace "   ".toList = [] ∧
      rule5Item ⟨"   ", "12.00"⟩ = some ⌈((decimalCents "12.00" : ℚ) / 100) * (2 / 10)⌉ ∧
      rule5Item ⟨"   ", "12.00"⟩ = some 3 :=
  ⟨(whitespace_description_fires_rule5 ⟨"   ", "12.00"⟩ (by decide)).1,
    (whitespace_description_fires_rule5 ⟨"   ", "12.00"⟩ (by decide)).2.2.2
      (by decide) (by decide),
    by decide!⟩

/-- Counterexample to C20 as stated. The description of three spaces consists of whitespace
only and the price `10000000000000000.01` parses as a number; the ceiling of a fifth of it
is 2000000000000001, and the item adds 2000000000000000. -/
theorem whitespace_item_below_ceiling :
    (∀ c ∈ "   ".toList, isSpace c = true) ∧
      (parseFloat "10000000000000000.01").toBool = true ∧
      ⌈((decimalCents "10000000000000000.01" : ℚ) / 100) * (2 / 10)⌉ = 2000000000000001 ∧
      rule5Item ⟨"   ", "10000000000000000.01"⟩ = some 2000000000000000 := by
  refine ⟨by decide, by decide!, ?_, by decide!⟩
  rw [← ceilFifth_eq_ceil]
  decide

/-! ## Claims about Rule 1 and the worked example -/

theorem rawPoints_retailer (r : Receipt) (s : String) :
    rawPoints { r with retailer := s } =
      rawPoints r + (((s.toList.countP Char.isAlphanum : Nat) : Int)
        - ((r.retailer.toList.countP Char.isAlphanum : Nat) : Int)) := by
  unfold rawPoints otherRulesPoints
  simp only [findAllCount_reAlnum]
  ring

theorem calculatePoints_eq_wrap_raw (r : Receipt) : calculatePoints r = wrap64 (rawPoints r) :=
  calculatePoints_eq_other r

theorem calculatePoints_retailer_congr (r : Receipt) (s t : String)
    (h : s.toList.countP Char.isAlphanum = t.toList.countP Char.isAlphanum) :
    calculatePoints { r with retailer := s } = calculatePoints { r with retailer := t } := by
  rw [calculatePoints_eq_wrap_raw, calculatePoints_eq_wrap_raw, rawPoints_retailer r s,
    rawPoints_retailer r t, h]

/-- C13, amended. For two receipts that differ only in the retailer and whose accumulated
sums both fit a 64-bit integer, the difference of the scores is the difference of the
numbers of characters in `[a-zA-Z0-9]` of the two retailers. Without any condition, two
retailers with the same number of such characters give the same score; in particular
inserting a character that is no ASCII letter or digit, such as a space, `&` or `é`, never
changes the score. -/
theorem retailer_counts_ascii_alnum (r : Receipt) (s : String) :
    ((-(2 : Int) ^ 63 ≤ rawPoints r ∧ rawPoints r < (2 : Int) ^ 63) →
      (-(2 : Int) ^ 63 ≤ rawPoints { r with retailer := s } ∧
        rawPoints { r with retailer := s } < (2 : Int) ^ 63) →
      calculatePoints { r with retailer := s } - calculatePoints r =
        ((s.toList.countP Char.isAlphanum : Nat) : Int)
          - ((r.retailer.toList.countP Char.isAlphanum : Nat) : Int)) ∧
    (s.toList.countP Char.isAlphanum = r.retailer.toList.countP Char.isAlphanum →
      calculatePoints { r with retailer := s } = calculatePoints r) ∧
    (∀ (pre post : List Char) (c : Char), c.isAlphanum = false →
      calculatePoints { r with retailer := String.mk (pre ++ c :: post) }
        = calculatePoints { r with retailer := String.mk (pre ++ post) }) ∧
    (' ' : Char).isAlphanum = false ∧ ('&' : Char).isAlphanum = false ∧
    ('é' : Char).isAlphanum = false := by
  refine ⟨?_, ?_, ?_, by decide, by decide, by decide⟩
  · intro h1 h2
    rw [calculatePoints_eq_wrap_raw, calculatePoints_eq_wrap_raw,
      wrap64_of_range _ h1.1 h1.2, wrap64_of_range _ h2.1 h2.2, rawPoints_retailer]
    ring
  · intro h
    have := calculatePoints_retailer_congr r s r.retailer h
    exact this
  · intro pre post c hc
    apply calculatePoints_retailer_congr
    show (pre ++ c :: post).countP Char.isAlphanum = (pre ++ post).countP Char.isAlphanum
    rw [List.countP_append, List.countP_append, List.countP_cons_of_neg _ _ (by simp [hc])]

/-- Witness of C13: the worked example with the retailer `M&M Corner Market` (14 letters
and digits) instead of `Target` (6) scores 8 more. -/
theorem retailer_counts_ascii_alnum_witness :
    calculatePoints { fixtureReceipt with retailer := "M&M Corner Market" }
      - calculatePoints fixtureReceipt = ((14 : Nat) : Int) - ((6 : Nat) : Int) :=
  (retailer_counts_ascii_alnum fixtureReceipt "M&M Corner Market").1
    ⟨by decide!, by decide!⟩ ⟨by decide!, by decide!⟩

/-- Counterexample to C13 as stated. The two receipts differ only in the retailer, `-`
with no letter or digit and `A` with one; the first scores `2^63 - 1` and the second, whose
sum wraps around, `-2^63`: the scores differ by `1 - 2^64`, not by 1. -/
theorem retailer_difference_wraps :
    calculatePoints nearWrapReceipt = 9223372036854775807 ∧
      calculatePoints { nearWrapReceipt with retailer := "A" } = -9223372036854775808 ∧
      "A".toList.countP Char.isAlphanum = 1 ∧
      nearWrapReceipt.retailer.toList.countP Char.isAlphanum = 0 := by
  refine ⟨by decide!, by decide!, by decide, by decide⟩

theorem rule5Item_of_not_applies (item : Item) (h : rule5Applies item = false) :
    rule5Item item = none := by
  unfold rule5Applies at h
  unfold rule5Item
  rw [h]
  rfl

theorem sum_rule5_filter (items : List Item) :
    (items.map (fun item => (rule5Item item).getD 0)).sum
      = ((items.filter rule5Applies).map (fun item => (rule5Item item).getD 0)).sum := by
  induction items with
  | nil => rfl
  | cons it rest ih =>
    cases h : rule5Applies it with
    | false =>
      rw [List.filter_cons_of_neg (by simp [h]), List.map_cons, List.sum_cons,
        rule5Item_of_not_applies it h, ih]
      simp
    | true =>
      rw [List.filter_cons_of_pos h, List.map_cons, List.map_cons, List.sum_cons,
        List.sum_cons, ih]

/-- C14, amended. For every receipt with the retailer `Target`, the total `35.35`, the
date `2022-01-01`, the time `13:01` and exactly 5 items of which exactly two have a trimmed
description of a length divisible by 3, their prices `p1` and `p2` having two decimals and
being below `10^15` cents, `calculatePoints` is `22 + ceiling(0.2*p1) + ceiling(0.2*p2)`. -/
theorem fixture_score (r : Receipt) (i1 i2 : Item)
    (hret : r.retailer = "Target") (htot : r.total = "35.35")
    (hdate : r.purchaseDate = "2022-01-01") (htime : r.purchaseTime = "13:01")
    (hlen : r.items.length = 5) (htwo : r.items.filter rule5Applies = [i1, i2])
    (hp1 : isValidTotal i1.price = true ∧ decimalCents i1.price < 10 ^ 15)
    (hp2 : isValidTotal i2.price = true ∧ decimalCents i2.price < 10 ^ 15) :
    calculatePoints r = 22 + ⌈((decimalCents i1.price : ℚ) / 100) * (2 / 10)⌉
      + ⌈((decimalCents i2.price : ℚ) / 100) * (2 / 10)⌉ := by
  have ha1 : rule5Applies i1 = true := by
    have : i1 ∈ r.items.filter rule5Applies := by rw [htwo]; simp
    exact (List.mem_filter.1 this).2
  have ha2 : rule5Applies i2 = true := by
    have : i2 ∈ r.items.filter rule5Applies := by rw [htwo]; simp
    exact (List.mem_filter.1 this).2
  have he1 := rule5Item_exact i1 (by simpa [rule5Applies] using ha1) hp1.1 hp1.2
  have he2 := rule5Item_exact i2 (by simpa [rule5Applies] using ha2) hp2.1 hp2.2
  have hr1 : reAlnum.findAllCount "Target" = 6 := by decide
  have hr2 : rule2Fires "35.35" = false := by decide!
  have hr3 : rule3Fires "35.35" = false := by decide!
  have hr6 : isOddDay "2022-01-01" = true := by decide
  have hr7 : isAfternoon "13:01" = false := by decide
  have hc1 : ceilFifth (decimalCents i1.price) ≤ 10 ^ 15 := by unfold ceilFifth; omega
  have hc2 : ceilFifth (decimalCents i2.price) ≤ 10 ^ 15 := by unfold ceilFifth; omega
  rw [calculatePoints_eq, sum_rule5_filter, htwo, hret, htot, hdate, htime, hlen, hr1, hr2, hr3,
    hr6, hr7]
  simp only [List.map_cons, List.map_nil, List.sum_cons, List.sum_nil, he1, he2,
    Option.getD_some, ← ceilFifth_eq_ceil]
  rw [wrap64_of_range]
  · norm_num
    ring
  · norm_num
    omega
  · norm_num
    omega

/-- Witness of C14: the worked example, with the prices `12.25` and `12.00`, scores 28. -/
theorem fixture_score_witness :
    calculatePoints fixtureReceipt = 22 + ⌈((decimalCents "12.25" : ℚ) / 100) * (2 / 10)⌉
      + ⌈((decimalCents "12.00" : ℚ) / 100) * (2 / 10)⌉ ∧
      calculatePoints fixtureReceipt = 28 :=
  ⟨fixture_score fixtureReceipt ⟨"Emils Cheese Pizza", "12.25"⟩
    ⟨"   Klarbrunn 12-PK 12 FL OZ  ", "12.00"⟩ rfl rfl rfl rfl rfl (by decide)
    ⟨by decide, by decide⟩ ⟨by decide, by decide⟩, by decide!⟩

/-- Counterexample to C14 as stated. The receipt has the four texts of the worked example
and 5 items of which exactly two have a trimmed description of a length divisible by 3,
with the two-decimal prices `10000000000000000.01` and `12.00`; the ceilings are
2000000000000001 and 3, so the claimed score is 2000000000000026, and `calculatePoints`
gives 2000000000000025. -/
theorem fixture_score_below :
    bigFixtureReceipt.items.length = 5 ∧
      bigFixtureReceipt.items.filter rule5Applies
        = [⟨"Emils Cheese Pizza", "10000000000000000.01"⟩,
            ⟨"   Klarbrunn 12-PK 12 FL OZ  ", "12.00"⟩] ∧
      ⌈((decimalCents "10000000000000000.01" : ℚ) / 100) * (2 / 10)⌉ = 2000000000000001 ∧
      ⌈((decimalCents "12.00" : ℚ) / 100) * (2 / 10)⌉ = 3 ∧
      calculatePoints bigFixtureReceipt = 2000000000000025 := by
  refine ⟨by decide, by decide, ?_, ?_, by decide!⟩
  · rw [← ceilFifth_eq_ceil]; decide
  · rw [← ceilFifth_eq_ceil]; decide

/-! ## Facts about the store -/

theorem GoMap.get_isSome_iff {V : Type} (m : GoMap V) (k : String) :
    (m.get k).isSome ↔ k ∈ m.keys := by
  induction m with
  | nil => simp [GoMap.get, GoMap.keys]
  | cons e rest ih =>
    obtain ⟨a, v⟩ := e
    by_cases h : a = k
    · simp [GoMap.get, GoMap.keys, h]
    · have h2 : ¬ k = a := fun e => h e.symm
      simp only [GoMap.get, h, if_false, ih, GoMap.keys, List.map_cons, List.mem_cons, h2,
        false_or]

theorem GoMap.keys_set_nodup {V : Type} (m : GoMap V) (k : String) (v : V)
    (h : m.keys.Nodup) : (m.set k v).keys.Nodup := by
  unfold GoMap.set GoMap.keys at *
  rw [List.map_cons, List.nodup_cons]
  constructor
  · intro hmem
    obtain ⟨e, he, hk⟩ := List.mem_map.1 hmem
    have := (List.mem_filter.1 he).2
    simp only [bne_iff_ne, ne_eq] at this
    exact this hk
  · exact (h.sublist (List.Sublist.map _ (List.filter_sublist _)))

theorem step_lookup_store (st : Store) (id : String) : (getPoints st id).2 = st := by
  unfold getPoints
  split <;> rfl

theorem step_process_cases (st : Store) (bound : Except String Receipt) (newId : String) :
    ((processReceipt st bound newId).2 = st ∧ drawnId (.process bound newId) = none ∧
        ∀ i, (processReceipt st bound newId).1.body ≠ .id i) ∨
      (∃ r, bound = .ok r ∧ isValidTotal r.total = true ∧
        drawnId (.process bound newId) = some newId ∧
        processReceipt st bound newId = (⟨200, .id newId⟩,
          ⟨st.receipts.set newId r, st.points.set newId (calculatePoints r)⟩)) := by
  cases bound with
  | error msg =>
    left
    refine ⟨rfl, rfl, ?_⟩
    intro i h
    cases h
  | ok r =>
    cases hv : isValidTotal r.total with
    | false =>
      left
      rw [processReceipt_invalid st r newId hv]
      refine ⟨rfl, by simp [drawnId, hv], ?_⟩
      intro i h
      cases h
    | true =>
      right
      exact ⟨r, rfl, hv, by simp [drawnId, hv], processReceipt_ok st r newId hv⟩

theorem storeConsistent_set (st : Store) (r : Receipt) (newId : String)
    (h : StoreConsistent st) :
    StoreConsistent ⟨st.receipts.set newId r, st.points.set newId (calculatePoints r)⟩ := by
  obtain ⟨h1, h2, h3, h4⟩ := h
  refine ⟨?_, ?_, GoMap.keys_set_nodup _ _ _ h3, GoMap.keys_set_nodup _ _ _ h4⟩
  · intro id
    by_cases hid : id = newId
    · subst hid
      simp [GoMap.get_set_same]
    · simp only [GoMap.get_set_other _ _ _ _ hid]
      exact h1 id
  · intro id r1 hr1
    by_cases hid : id = newId
    · subst hid
      simp only [GoMap.get_set_same] at hr1 ⊢
      cases hr1
      rfl
    · simp only [GoMap.get_set_other _ _ _ _ hid] at hr1 ⊢
      exact h2 id r1 hr1

theorem storeConsistent_step (st : Store) (op : Op) (h : StoreConsistent st) :
    StoreConsistent (step st op).2 := by
  cases op with
  | lookup id => rw [step, step_lookup_store]; exact h
  | process bound newId =>
    rcases step_process_cases st bound newId with ⟨hs, -, -⟩ | ⟨r, -, -, -, hs⟩
    · rw [step, hs]; exact h
    · rw [step, hs]; exact storeConsistent_set st r newId h

theorem execFrom_cons_lookup (st : Store) (ids : List String) (id : String) (ops : List Op) :
    execFrom st ids (.lookup id :: ops) = execFrom st ids ops := by
  simp only [execFrom, step, step_lookup_store]

theorem execFrom_cons_process (st : Store) (ids : List String)
    (bound : Except String Receipt) (newId : String) (ops : List Op) :
    execFrom st ids (.process bound newId :: ops) =
      match drawnId (.process bound newId) with
      | some i => execFrom (processReceipt st bound newId).2 (i :: ids) ops
      | none => execFrom st ids ops := by
  cases bound with
  | error msg => simp only [execFrom, step, processReceipt, drawnId]
  | ok r =>
    cases hv : isValidTotal r.total with
    | false =>
      simp only [execFrom, step, processReceipt_invalid st r newId hv, drawnId, hv,
        Bool.false_eq_true, if_false]
    | true =>
      simp only [execFrom, step, processReceipt_ok st r newId hv, drawnId, hv, if_true]

/-- The identifiers returned so far are the identifiers drawn, latest first, and the store
does not depend on the record of returned identifiers. -/
theorem execFrom_eq (ops : List Op) :
    ∀ st ids, (execFrom st ids ops).2 = (draws ops).reverse ++ ids ∧
      (execFrom st ids ops).1 = (execFrom st [] ops).1 := by
  induction ops with
  | nil => intro st ids; simp [execFrom, draws]
  | cons op ops ih =>
    intro st ids
    cases op with
    | lookup id =>
      rw [execFrom_cons_lookup, execFrom_cons_lookup]
      have := ih st ids
      simpa [draws, drawnId] using this
    | process bound newId =>
      rw [execFrom_cons_process, execFrom_cons_process]
      cases hd : drawnId (.process bound newId) with
      | none =>
        have := ih st ids
        simpa [draws, hd] using this
      | some i =>
        have h1 := ih (processReceipt st bound newId).2 (i :: ids)
        have h2 := ih (processReceipt st bound newId).2 [i]
        simp only [draws, List.filterMap_cons, hd, List.reverse_cons, List.append_assoc,
          List.singleton_append]
        exact ⟨h1.1, h1.2.trans h2.2.symm⟩

theorem exec_ids (ops : List Op) : (exec ops).2 = (draws ops).reverse := by
  have := (execFrom_eq ops Store.empty []).1
  simpa [exec] using this

theorem exec_append_store (pre : List Op) :
    ∀ (rest : List Op) (st : Store) (ids : List String),
      (execFrom st ids (pre ++ rest)).1 = (execFrom (execFrom st ids pre).1 [] rest).1 := by
  induction pre with
  | nil =>
    intro rest st ids
    exact (execFrom_eq rest st ids).2
  | cons op pre ih =>
    intro rest st ids
    cases op with
    | lookup id =>
      rw [List.cons_append, execFrom_cons_lookup, execFrom_cons_lookup]
      exact ih rest st ids
    | process bound newId =>
      rw [List.cons_append, execFrom_cons_process, execFrom_cons_process]
      cases hd : drawnId (.process bound newId) with
      | none => exact ih rest st ids
      | some i => exact ih rest _ _

theorem storeConsistent_execFrom (ops : List Op) :
    ∀ st ids, StoreConsistent st → StoreConsistent (execFrom st ids ops).1 := by
  induction ops with
  | nil => intro st ids h; exact h
  | cons op ops ih =>
    intro st ids h
    cases op with
    | lookup id => rw [execFrom_cons_lookup]; exact ih st ids h
    | process bound newId =>
      rw [execFrom_cons_process]
      cases hd : drawnId (.process bound newId) with
      | none => exact ih st ids h
      | some i =>
        apply ih
        have := storeConsistent_step st (.process bound newId) h
        exact this

theorem storeConsistent_empty : StoreConsistent Store.empty := by
  refine ⟨fun id => by simp [Store.empty, GoMap.get], ?_, ?_, ?_⟩
  · intro id r h
    simp [Store.empty, GoMap.get] at h
  · simp [Store.empty, GoMap.keys]
  · simp [Store.empty, GoMap.keys]

/-- C15. Store invariant: in every store reached from the empty one by a sequence of
requests, the receipts map and the points map hold exactly the same identifiers, each
identifier once, and the score stored under an identifier is `calculatePoints` of the
receipt stored under it. -/
theorem store_invariant (ops : List Op) :
    (∀ id, ((exec ops).1.receipts.get id).isSome ↔ ((exec ops).1.points.get id).isSome) ∧
      (∀ id, id ∈ (exec ops).1.receipts.keys ↔ id ∈ (exec ops).1.points.keys) ∧
      (exec ops).1.receipts.keys.Nodup ∧ (exec ops).1.points.keys.Nodup ∧
      (∀ id r, (exec ops).1.receipts.get id = some r →
        (exec ops).1.points.get id = some (calculatePoints r)) := by
  obtain ⟨h1, h2, h3, h4⟩ := storeConsistent_execFrom ops Store.empty [] storeConsistent_empty
  refine ⟨h1, ?_, h3, h4, h2⟩
  intro id
  rw [← GoMap.get_isSome_iff, ← GoMap.get_isSome_iff]
  exact h1 id

theorem processReceipt_other_id (st : Store) (bound : Except String Receipt)
    (newId id : String) (h : id ≠ newId) :
    (processReceipt st bound newId).2.receipts.get id = st.receipts.get id ∧
      (processReceipt st bound newId).2.points.get id = st.points.get id := by
  rcases step_process_cases st bound newId with ⟨hs, -, -⟩ | ⟨r, -, -, -, hs⟩
  · rw [hs]; exact ⟨rfl, rfl⟩
  · rw [hs]
    exact ⟨GoMap.get_set_other _ _ _ _ h, GoMap.get_set_other _ _ _ _ h⟩

/-- C16. The store only grows and stored records are immutable. The identifier of an
insert is the one that `uuid.New()` draws, a new identifier, not a key of the store: for
every store and every single operation on it, `processReceipt` with any payload, valid or
not, or `getPoints` with any identifier, every identifier stored before the operation is
stored afterwards with the same receipt and the same score, and `getPoints` leaves the
whole store unchanged. Every identifier other than the drawn one keeps its records
whatever is drawn. -/
theorem stored_records_kept (st : Store) (bound : Except String Receipt) (newId : String)
    (hfresh : st.receipts.get newId = none ∧ st.points.get newId = none) :
    (∀ id r, st.receipts.get id = some r →
        (processReceipt st bound newId).2.receipts.get id = some r) ∧
      (∀ id p, st.points.get id = some p →
        (processReceipt st bound newId).2.points.get id = some p) ∧
      (∀ id, (getPoints st id).2 = st) ∧
      (∀ id, (getPoints st id).2.receipts = st.receipts ∧
        (getPoints st id).2.points = st.points) := by
  refine ⟨?_, ?_, step_lookup_store st, ?_⟩
  · intro id r hr
    have hi : id ≠ newId := by
      rintro rfl
      rw [hfresh.1] at hr
      cases hr
    rw [(processReceipt_other_id st bound newId id hi).1, hr]
  · intro id p hp
    have hi : id ≠ newId := by
      rintro rfl
      rw [hfresh.2] at hp
      cases hp
    rw [(processReceipt_other_id st bound newId id hi).2, hp]
  · intro id
    rw [step_lookup_store]
    exact ⟨rfl, rfl⟩

/-- Witness of C16: the worked example is stored with the score 28; after a second insert
it is still stored under its identifier with the same score. -/
theorem stored_records_kept_witness :
    (processReceipt
        (exec [.process (.ok fixtureReceipt) "7fb1377b-b223-49d9-a31a-5a02701dd310"]).1
        (.ok slipReceipt) "adb6b560-0eef-42bc-9d16-df48f30e89b2").2.receipts.get
          "7fb1377b-b223-49d9-a31a-5a02701dd310" = some fixtureReceipt ∧
      (processReceipt
        (exec [.process (.ok fixtureReceipt) "7fb1377b-b223-49d9-a31a-5a02701dd310"]).1
        (.ok slipReceipt) "adb6b560-0eef-42bc-9d16-df48f30e89b2").2.points.get
          "7fb1377b-b223-49d9-a31a-5a02701dd310" = some 28 :=
  ⟨(stored_records_kept
      (exec [.process (.ok fixtureReceipt) "7fb1377b-b223-49d9-a31a-5a02701dd310"]).1
      (.ok slipReceipt) "adb6b560-0eef-42bc-9d16-df48f30e89b2"
      ⟨by decide!, by decide!⟩).1 "7fb1377b-b223-49d9-a31a-5a02701dd310" fixtureReceipt
      (by decide!),
    (stored_records_kept
      (exec [.process (.ok fixtureReceipt) "7fb1377b-b223-49d9-a31a-5a02701dd310"]).1
      (.ok slipReceipt) "adb6b560-0eef-42bc-9d16-df48f30e89b2"
      ⟨by decide!, by decide!⟩).2.1 "7fb1377b-b223-49d9-a31a-5a02701dd310" 28
      (by decide!)⟩

/-- C18, the code at the failing input. `isAfternoon` is true for `14:00`, a time that is
not strictly later than 14:00. -/
theorem afternoon_includes_14_00 :
    isAfternoon "14:00" = true ∧
      ¬ (14 * 60 < twoDigits '1' '4' * 60 + twoDigits '0' '0') := by
  refine ⟨by decide, by decide⟩

end Receipts
